import Mathlib

/-!
Shallow embedding of the OFDM software modem core (repository
`software-modem`) and proofs about it.

The demodulator (`src/ofdm/demodulator.rs`) is embedded directly from the
source.  The QAM mapper/demapper, the subcarrier-layout constants and the
modulator are part of the repository but their source files are not present;
they are modelled from the specification (their definitions say so in their
doc comments).  `f32` samples are idealised as real numbers, `Complex32` as
`ℂ`; Rust panics are modelled as `none`.  The FFT engine is external to the
repository ("specified only by interface") and is represented by a structure
carrying an arbitrary transform of the interface's shape.
-/

namespace SoftwareModem

variable {α β : Type*}

/-- Concatenation of the images of a function over a list, used for bit
streams (`flat_map`). -/
def concatMap (f : α → List β) : List α → List β
  | [] => []
  | x :: xs => f x ++ concatMap f xs

@[simp] theorem concatMap_nil (f : α → List β) : concatMap f [] = [] := rfl

@[simp] theorem concatMap_cons (f : α → List β) (x : α) (xs : List α) :
    concatMap f (x :: xs) = f x ++ concatMap f xs := rfl

/-- Numeric value of a most-significant-bit-first bit list. -/
def valueOfBits (l : List ℕ) : ℕ := l.foldl (fun a b => 2 * a + b) 0

/-- The `k` low bits of a natural number, most significant first. -/
def bitsOfValue (k v : ℕ) : List ℕ :=
  (List.range k).map (fun i => v / 2 ^ (k - 1 - i) % 2)

/-- Byte stream to bit stream, most significant bit of each byte first. -/
def bytesToBits (bytes : List ℕ) : List ℕ := concatMap (bitsOfValue 8) bytes

/-- Fuel-driven chunking of a list into blocks of `k` elements (the last block
may be shorter).  Structural recursion on the fuel keeps it kernel-reducible. -/
def chunksGo (k : ℕ) : ℕ → List α → List (List α)
  | 0, _ => []
  | _ + 1, [] => []
  | fuel + 1, l => l.take k :: chunksGo k fuel (l.drop k)

/-- Chunking of a list into blocks of `k` elements. -/
def chunksOf (k : ℕ) (l : List α) : List (List α) := chunksGo k l.length l

/-- Zero-pad a partial chunk on the right (the mapper's packing rule for a
trailing partial group). -/
def padChunk (k : ℕ) (c : List ℕ) : List ℕ := c ++ List.replicate (k - c.length) 0

/-- Bit stream back to bytes; a trailing partial byte is zero-padded. -/
def bitsToBytes (bits : List ℕ) : List ℕ :=
  (chunksOf 8 bits).map (fun c => valueOfBits (padChunk 8 c))

/-- High and low half-byte of each byte, in order. -/
def nibbles (bytes : List ℕ) : List ℕ :=
  concatMap (fun b => [b / 16 % 16, b % 16]) bytes

@[simp] theorem chunksGo_zero (k : ℕ) (l : List α) : chunksGo k 0 l = [] := rfl

@[simp] theorem chunksGo_nil (k fuel : ℕ) : chunksGo k fuel ([] : List α) = [] := by
  cases fuel <;> rfl

theorem chunksGo_cons (k fuel : ℕ) (x : α) (xs : List α) :
    chunksGo k (fuel + 1) (x :: xs) =
      (x :: xs).take k :: chunksGo k fuel ((x :: xs).drop k) := rfl

@[simp] theorem chunksOf_nil (k : ℕ) : chunksOf k ([] : List α) = [] := rfl

theorem chunksGo_fuel_irrel (k : ℕ) (hk : 0 < k) :
    ∀ (f₁ f₂ : ℕ) (l : List α), l.length ≤ f₁ → l.length ≤ f₂ →
      chunksGo k f₁ l = chunksGo k f₂ l := by
  intro f₁
  induction f₁ with
  | zero =>
      intro f₂ l hl _
      have : l = [] := List.eq_nil_of_length_eq_zero (Nat.le_zero.mp hl)
      subst this; simp
  | succ f ih =>
      intro f₂ l hl hl₂
      cases l with
      | nil => simp
      | cons x xs =>
          cases f₂ with
          | zero =>
              simp only [List.length_cons] at hl₂
              omega
          | succ g =>
              rw [chunksGo_cons, chunksGo_cons]
              congr 1
              apply ih
              · simp only [List.length_drop, List.length_cons]
                simp only [List.length_cons] at hl
                omega
              · simp only [List.length_drop, List.length_cons]
                simp only [List.length_cons] at hl₂
                omega

theorem chunksGo_fuel (k : ℕ) (hk : 0 < k) (fuel : ℕ) (l : List α)
    (h : l.length ≤ fuel) : chunksGo k fuel l = chunksOf k l :=
  chunksGo_fuel_irrel k hk fuel l.length l h le_rfl

theorem chunksGo_succ_ne_nil (k fuel : ℕ) (l : List α) (h : l ≠ []) :
    chunksGo k (fuel + 1) l = l.take k :: chunksGo k fuel (l.drop k) := by
  cases l with
  | nil => exact absurd rfl h
  | cons x xs => rfl

/-- Peeling one full block off the front of a chunking. -/
theorem chunksOf_append (k : ℕ) (hk : 0 < k) (l₁ l₂ : List α) (h : l₁.length = k) :
    chunksOf k (l₁ ++ l₂) = l₁ :: chunksOf k l₂ := by
  have hne : l₁ ++ l₂ ≠ [] := by
    intro hcontra
    have := congrArg List.length hcontra
    simp only [List.length_append, List.length_nil, h] at this
    omega
  have hlen : (l₁ ++ l₂).length = (k - 1 + l₂.length) + 1 := by
    simp only [List.length_append, h]
    omega
  rw [chunksOf, hlen, chunksGo_succ_ne_nil _ _ _ hne, List.take_left' h, List.drop_left' h]
  congr 1
  exact chunksGo_fuel k hk _ l₂ (by omega)

@[simp] theorem length_bitsOfValue (k v : ℕ) : (bitsOfValue k v).length = k := by
  simp [bitsOfValue]

theorem bitsOfValue_four (v : ℕ) :
    bitsOfValue 4 v = [v / 8 % 2, v / 4 % 2, v / 2 % 2, v % 2] := by
  simp [bitsOfValue, List.range_succ]

theorem bitsOfValue_eight (v : ℕ) :
    bitsOfValue 8 v = [v / 128 % 2, v / 64 % 2, v / 32 % 2, v / 16 % 2,
      v / 8 % 2, v / 4 % 2, v / 2 % 2, v % 2] := by
  simp [bitsOfValue, List.range_succ]

theorem valueOfBits_four (a b c d : ℕ) :
    valueOfBits [a, b, c, d] = 8 * a + 4 * b + 2 * c + d := by
  simp [valueOfBits, List.foldl]
  ring

theorem valueOfBits_eight (a b c d e f g h : ℕ) :
    valueOfBits [a, b, c, d, e, f, g, h] =
      128 * a + 64 * b + 32 * c + 16 * d + 8 * e + 4 * f + 2 * g + h := by
  simp [valueOfBits, List.foldl]
  ring

theorem valueOfBits_bitsOfValue_four (g : ℕ) (hg : g < 16) :
    valueOfBits (bitsOfValue 4 g) = g := by
  rw [bitsOfValue_four, valueOfBits_four]
  omega

theorem valueOfBits_bitsOfValue_eight (b : ℕ) (hb : b < 256) :
    valueOfBits (bitsOfValue 8 b) = b := by
  rw [bitsOfValue_eight, valueOfBits_eight]
  omega

/-- Splitting a byte's bits into the bits of its two half-bytes. -/
theorem bitsOfValue_eight_split (b : ℕ) :
    bitsOfValue 8 b = bitsOfValue 4 (b / 16 % 16) ++ bitsOfValue 4 (b % 16) := by
  rw [bitsOfValue_eight, bitsOfValue_four, bitsOfValue_four]
  simp only [List.cons_append, List.nil_append, List.cons.injEq, and_true]
  omega

theorem padChunk_of_length (k : ℕ) (c : List ℕ) (h : c.length = k) :
    padChunk k c = c := by
  simp [padChunk, h]

theorem map_concatMap (f : α → List β) (g : β → γ) (l : List α) :
    (concatMap f l).map g = concatMap (fun x => (f x).map g) l := by
  induction l with
  | nil => rfl
  | cons x xs ih => simp [concatMap, ih]

theorem concatMap_append (f : α → List β) (l₁ l₂ : List α) :
    concatMap f (l₁ ++ l₂) = concatMap f l₁ ++ concatMap f l₂ := by
  induction l₁ with
  | nil => rfl
  | cons x xs ih => simp [concatMap_cons, ih]

theorem concatMap_congr (f g : α → List β) (l : List α)
    (h : ∀ x ∈ l, f x = g x) : concatMap f l = concatMap g l := by
  induction l with
  | nil => rfl
  | cons x xs ih =>
      simp only [concatMap_cons]
      rw [h x (List.mem_cons_self x xs), ih (fun y hy => h y (List.mem_cons_of_mem x hy))]

theorem length_concatMap_const (f : α → List β) (k : ℕ) (l : List α)
    (h : ∀ x ∈ l, (f x).length = k) : (concatMap f l).length = k * l.length := by
  induction l with
  | nil => simp
  | cons x xs ih =>
      simp only [concatMap_cons, List.length_append, List.length_cons]
      rw [h x (List.mem_cons_self x xs), ih (fun y hy => h y (List.mem_cons_of_mem x hy))]
      ring

theorem mem_concatMap (f : α → List β) (l : List α) (y : β) :
    y ∈ concatMap f l ↔ ∃ x ∈ l, y ∈ f x := by
  induction l with
  | nil => simp
  | cons x xs ih => simp [concatMap_cons, ih]

/-- The byte→bit-chunk decomposition used by the 16-QAM mapper: chunking the
bit stream of a byte list into 4-bit groups yields exactly the bit lists of
the successive half-bytes. -/
theorem chunksOf_four_bytesToBits (bytes : List ℕ) :
    chunksOf 4 (bytesToBits bytes) =
      concatMap (fun b => [bitsOfValue 4 (b / 16 % 16), bitsOfValue 4 (b % 16)]) bytes := by
  induction bytes with
  | nil => simp [bytesToBits]
  | cons b bs ih =>
      show chunksOf 4 (bitsOfValue 8 b ++ bytesToBits bs) = _
      rw [bitsOfValue_eight_split, List.append_assoc,
        chunksOf_append 4 (by norm_num) _ _ (length_bitsOfValue 4 _),
        chunksOf_append 4 (by norm_num) _ _ (length_bitsOfValue 4 _), ih]
      rfl

/-- Reassembling the bit stream of a byte list into bytes gives the bytes
back (each byte must fit in 8 bits). -/
theorem bitsToBytes_bytesToBits (bytes : List ℕ) (h : ∀ b ∈ bytes, b < 256) :
    bitsToBytes (bytesToBits bytes) = bytes := by
  induction bytes with
  | nil => simp [bytesToBits, bitsToBytes]
  | cons b bs ih =>
      show bitsToBytes (bitsOfValue 8 b ++ bytesToBits bs) = _
      unfold bitsToBytes
      rw [chunksOf_append 8 (by norm_num) _ _ (length_bitsOfValue 8 _)]
      simp only [List.map_cons]
      rw [padChunk_of_length 8 _ (length_bitsOfValue 8 _),
        valueOfBits_bitsOfValue_eight b (h b (List.mem_cons_self b bs))]
      congr 1
      exact ih (fun y hy => h y (List.mem_cons_of_mem b hy))

/- ### QAM mapper / demapper

Modelled from the spec: the QAM modem source file is not part of `src/`.
The spec fixes: `bitsPerSymbol = log2(order)`, MSB-first packing of bytes
into bit groups, a square Gray-coded constellation grid, nearest-point
decision per axis, and zero-padding of a trailing partial byte. -/

inductive QAMOrder
  | QAM4
  | QAM16
  | QAM64
deriving DecidableEq

/-- Modelled from the spec: bits per QAM symbol is log2 of the order. -/
def QAMOrder.bitsPerSymbol : QAMOrder → ℕ
  | .QAM4 => 2
  | .QAM16 => 4
  | .QAM64 => 6

/-- Modelled from the spec: Gray-coded amplitude level for a 2-bit axis code
of the square 16-QAM grid. -/
def lv16 (c : ℕ) : ℤ :=
  if c = 0 then -3 else if c = 1 then -1 else if c = 3 then 1 else 3

/-- Inverse of `lv16`. -/
def code16 (l : ℤ) : ℕ :=
  if l = -3 then 0 else if l = -1 then 1 else if l = 1 then 3 else 2

/-- Modelled from the spec: level for a 1-bit axis code of the 4-QAM grid. -/
def lv4 (c : ℕ) : ℤ := if c = 0 then -1 else 1

/-- Inverse of `lv4`. -/
def code4 (l : ℤ) : ℕ := if l = -1 then 0 else 1

/-- Modelled from the spec: level for a 3-bit Gray axis code of the 64-QAM
grid. -/
def lv64 (c : ℕ) : ℤ :=
  if c = 0 then -7 else if c = 1 then -5 else if c = 3 then -3 else
  if c = 2 then -1 else if c = 6 then 1 else if c = 7 then 3 else
  if c = 5 then 5 else 7

/-- Inverse of `lv64`. -/
def code64 (l : ℤ) : ℕ :=
  if l = -7 then 0 else if l = -5 then 1 else if l = -3 then 3 else
  if l = -1 then 2 else if l = 1 then 6 else if l = 3 then 7 else
  if l = 5 then 5 else 4

/-- Modelled from the spec: integer coordinates of the constellation point of
one bit group (high bits drive the in-phase axis). -/
def qamPointZ : QAMOrder → ℕ → ℤ × ℤ
  | .QAM4, g => (lv4 (g / 2 % 2), lv4 (g % 2))
  | .QAM16, g => (lv16 (g / 4 % 4), lv16 (g % 4))
  | .QAM64, g => (lv64 (g / 8 % 8), lv64 (g % 8))

/-- The constellation point as a complex sample. -/
def qamPoint (o : QAMOrder) (g : ℕ) : ℂ :=
  ⟨((qamPointZ o g).1 : ℝ), ((qamPointZ o g).2 : ℝ)⟩

/-- Modelled from the spec: nearest-level decision on one axis of the 16-QAM
grid (levels -3, -1, 1, 3). -/
noncomputable def decideLevel16 (x : ℝ) : ℤ :=
  if x < -2 then -3 else if x < 0 then -1 else if x < 2 then 1 else 3

/-- Modelled from the spec: nearest-level decision on one axis of the 4-QAM
grid. -/
noncomputable def decideLevel4 (x : ℝ) : ℤ := if x < 0 then -1 else 1

/-- Modelled from the spec: nearest-level decision on one axis of the 64-QAM
grid. -/
noncomputable def decideLevel64 (x : ℝ) : ℤ :=
  if x < -6 then -7 else if x < -4 then -5 else if x < -2 then -3 else
  if x < 0 then -1 else if x < 2 then 1 else if x < 4 then 3 else
  if x < 6 then 5 else 7

/-- Modelled from the spec: nearest-point decision, recovering the bit group
of a received complex sample. -/
noncomputable def decidePoint (o : QAMOrder) (z : ℂ) : ℕ :=
  match o with
  | .QAM4 => 2 * code4 (decideLevel4 z.re) + code4 (decideLevel4 z.im)
  | .QAM16 => 4 * code16 (decideLevel16 z.re) + code16 (decideLevel16 z.im)
  | .QAM64 => 8 * code64 (decideLevel64 z.re) + code64 (decideLevel64 z.im)

/-- Modelled from the spec: MSB-first packing of a byte buffer into bit
groups of `bitsPerSymbol` bits, a trailing partial group zero-padded. -/
def qamGroups (o : QAMOrder) (bytes : List ℕ) : List ℕ :=
  (chunksOf o.bitsPerSymbol (bytesToBits bytes)).map
    (fun c => valueOfBits (padChunk o.bitsPerSymbol c))

/-- Modelled from the spec: QAM demodulation — nearest-point decision on each
sample, reassembling the bits into bytes, trailing partial byte zero-padded. -/
noncomputable def qamDemodulate (o : QAMOrder) (pts : List ℂ) : List ℕ :=
  bitsToBytes (concatMap (bitsOfValue o.bitsPerSymbol) (pts.map (decidePoint o)))

/-- For 16-QAM the bit groups of a byte list are exactly its half-bytes. -/
theorem qamGroups_sixteen (bytes : List ℕ) :
    qamGroups QAMOrder.QAM16 bytes = nibbles bytes := by
  unfold qamGroups nibbles
  show (chunksOf 4 (bytesToBits bytes)).map (fun c => valueOfBits (padChunk 4 c)) = _
  rw [chunksOf_four_bytesToBits, map_concatMap]
  apply concatMap_congr
  intro b _
  simp only [List.map_cons, List.map_nil]
  rw [padChunk_of_length 4 _ (length_bitsOfValue 4 _),
    padChunk_of_length 4 _ (length_bitsOfValue 4 _),
    valueOfBits_bitsOfValue_four _ (Nat.mod_lt _ (by norm_num)),
    valueOfBits_bitsOfValue_four _ (Nat.mod_lt _ (by norm_num))]

/-- The bit stream of the half-byte groups is the bit stream of the bytes. -/
theorem concatMap_bits_nibbles (bytes : List ℕ) :
    concatMap (bitsOfValue 4) (nibbles bytes) = bytesToBits bytes := by
  induction bytes with
  | nil => rfl
  | cons b bs ih =>
      have hstep : nibbles (b :: bs) = [b / 16 % 16, b % 16] ++ nibbles bs := rfl
      rw [hstep, concatMap_append, ih]
      show (bitsOfValue 4 (b / 16 % 16) ++ (bitsOfValue 4 (b % 16) ++ [])) ++ _ = _
      rw [List.append_nil, ← bitsOfValue_eight_split]
      rfl

/- ### Subcarrier layout (OFDM constants)

Modelled from the spec: the `OFDMConstants` source file is not part of
`src/`.  The spec fixes a deterministic partition of the usable bins into
guard (first and last), pilot (every `pilot_subcarrier_every`-th index among
the remaining) and data (all other indices, ascending).  The pilot stepping
stops `pilot_subcarrier_every` bins short of the upper guard — calibrated so
that for the reference configuration (64 subcarriers, spacing 4) there are
14 pilots and 48 data bins, the data capacity of 24 bytes exhibited by the
doc-test of `demodulate_symbol_from_buffer` in `src/ofdm/demodulator.rs` and
by `examples/basic_ofdm.rs`. -/

/-- Modelled from the spec: indices of the pilot subcarriers. -/
def pilotIdx (n pe : ℕ) : List ℕ :=
  (List.range n).filter
    (fun i => decide (i ≠ 0 ∧ i ≠ n - 1 ∧ i % pe = 0 ∧ i + pe ≤ n - 2))

/-- Modelled from the spec: indices of the data subcarriers, in ascending
order (the canonical symbol-position ↔ subcarrier mapping). -/
def dataIdx (n pe : ℕ) : List ℕ :=
  (List.range n).filter
    (fun i => decide (i ≠ 0 ∧ i ≠ n - 1 ∧ ¬(i % pe = 0 ∧ i + pe ≤ n - 2)))

theorem mem_pilotIdx (n pe i : ℕ) :
    i ∈ pilotIdx n pe ↔ i < n ∧ i ≠ 0 ∧ i ≠ n - 1 ∧ i % pe = 0 ∧ i + pe ≤ n - 2 := by
  simp [pilotIdx, List.mem_filter, and_comm]

theorem mem_dataIdx (n pe i : ℕ) :
    i ∈ dataIdx n pe ↔
      i < n ∧ i ≠ 0 ∧ i ≠ n - 1 ∧ ¬(i % pe = 0 ∧ i + pe ≤ n - 2) := by
  simp only [dataIdx, List.mem_filter, List.mem_range, decide_eq_true_eq]

theorem dataIdx_lt (n pe i : ℕ) (h : i ∈ dataIdx n pe) : i < n :=
  ((mem_dataIdx n pe i).mp h).1

theorem dataIdx_ne_zero (n pe i : ℕ) (h : i ∈ dataIdx n pe) : i ≠ 0 :=
  ((mem_dataIdx n pe i).mp h).2.1

theorem pilotIdx_lt (n pe i : ℕ) (h : i ∈ pilotIdx n pe) : i < n :=
  ((mem_pilotIdx n pe i).mp h).1

theorem not_pilot_of_data (n pe i : ℕ) (h : i ∈ dataIdx n pe) : i ∉ pilotIdx n pe := by
  intro hp
  exact ((mem_dataIdx n pe i).mp h).2.2.2 ⟨((mem_pilotIdx n pe i).mp hp).2.2.2.1,
    ((mem_pilotIdx n pe i).mp hp).2.2.2.2⟩

theorem dataIdx_sorted (n pe : ℕ) : List.Sorted (· < ·) (dataIdx n pe) :=
  (List.sorted_lt_range n).filter _

theorem dataIdx_nodup (n pe : ℕ) : (dataIdx n pe).Nodup :=
  (List.nodup_range n).filter _

theorem zero_not_mem_dataIdx (n pe : ℕ) : 0 ∉ dataIdx n pe := by
  intro h
  exact dataIdx_ne_zero n pe 0 h rfl

theorem zero_not_mem_pilotIdx (n pe : ℕ) : 0 ∉ pilotIdx n pe := by
  intro h
  exact ((mem_pilotIdx n pe 0).mp h).2.1 rfl

theorem top_not_mem_dataIdx (n pe : ℕ) : n ∉ dataIdx n pe := by
  intro h
  exact absurd (dataIdx_lt n pe n h) (lt_irrefl n)

theorem top_not_mem_pilotIdx (n pe : ℕ) : n ∉ pilotIdx n pe := by
  intro h
  exact absurd (pilotIdx_lt n pe n h) (lt_irrefl n)

/- ### Transform-engine interface

The FFT engine is an out-of-scope external collaborator, "specified only by
interface": the forward operation consumes `2*numSubcarriers` real samples
and produces `numSubcarriers+1` complex bins; the inverse has reciprocal
shapes; processing fails on any other input length. -/

/-- Interface of a forward real-to-complex transform engine of a fixed size
(`realfft::RealToComplex`). -/
structure RealToComplex where
  size : ℕ
  apply : List ℝ → List ℂ
  apply_length : ∀ v : List ℝ, v.length = size → (apply v).length = size / 2 + 1

/-- Processing checks the exact input length and otherwise fails, as the
engine contract demands. -/
def RealToComplex.process (t : RealToComplex) (input : List ℝ) : Option (List ℂ) :=
  if input.length = t.size then some (t.apply input) else none

/-- Interface of an inverse complex-to-real transform engine of a fixed
size. -/
structure ComplexToReal where
  size : ℕ
  apply : List ℂ → List ℝ
  apply_length : ∀ v : List ℂ, v.length = size / 2 + 1 → (apply v).length = size

def ComplexToReal.process (t : ComplexToReal) (input : List ℂ) : Option (List ℝ) :=
  if input.length = t.size / 2 + 1 then some (t.apply input) else none

/-- A trivial engine producing an all-zero spectrum (used to witness
degenerate-signal behaviour; it satisfies the interface shape). -/
def zeroEngine (k : ℕ) : RealToComplex where
  size := k
  apply := fun _ => List.replicate (k / 2 + 1) 0
  apply_length := by intro v _; simp

/- ### Derived constants, QAM modem object, demodulator -/

/-- Derived immutable constants (`OFDMConstants`); the source file is not in
`src/`, the fields are the ones used by `demodulator.rs`. -/
structure OFDMConstants where
  num_subcarriers : ℕ
  pilot_subcarrier_every : ℕ
  cyclic_prefix_length : ℕ
  bits_per_symbol : ℕ
  data_subcarrier_indices : List ℕ

/-- Modelled from the spec: layout derivation, once per configuration. -/
def OFDMConstants.new (n pe cp bits : ℕ) : OFDMConstants :=
  ⟨n, pe, cp, bits, dataIdx n pe⟩

/-- Modelled from the spec: maximum payload byte capacity of one symbol,
`dataIndices.len() * bitsPerSymbol / 8` (rounded down). -/
def OFDMConstants.data_capacity (c : OFDMConstants) : ℕ :=
  c.data_subcarrier_indices.length * c.bits_per_symbol / 8

/-- The QAM modem object (source file not in `src/`). -/
structure QAMModem where
  qam_order : QAMOrder

def QAMModem.new (o : QAMOrder) : QAMModem := ⟨o⟩

def QAMModem.bits_per_symbol (m : QAMModem) : ℕ := m.qam_order.bitsPerSymbol

/-- Modelled from the spec: QAM demodulation of a symbol vector to bytes. -/
noncomputable def QAMModem.demodulate (m : QAMModem) (pts : List ℂ) : List ℕ :=
  qamDemodulate m.qam_order pts

/-- Modelled from the spec: QAM modulation of bytes to constellation
points. -/
def QAMModem.modulate (m : QAMModem) (bytes : List ℕ) : List ℂ :=
  (qamGroups m.qam_order bytes).map (qamPoint m.qam_order)

/-- The OFDM demodulator (`OFDMDemodulator` in `src/ofdm/demodulator.rs`). -/
structure OFDMDemodulator where
  fft : RealToComplex
  qam_modem : QAMModem
  constants : OFDMConstants

/-- Configuration for the OFDM demodulator (`OFDMDemodulatorConfig`). -/
structure OFDMDemodulatorConfig where
  num_subcarriers : ℕ
  cyclic_prefix_length : ℕ
  pilot_subcarrier_every : ℕ
  qam_order : QAMOrder
  fft : Option RealToComplex

/-- Constructor `OFDMDemodulator::new`.  The default transform obtained from
`RealFftPlanner::plan_fft_forward(2 * num_subcarriers)` is external to the
repository; the planner is therefore passed as an explicit collaborator and
queried exactly as the source does when no engine is injected. -/
def OFDMDemodulator.new (config : OFDMDemodulatorConfig)
    (planner : ℕ → RealToComplex) : OFDMDemodulator :=
  let qam_modem := QAMModem.new config.qam_order
  let constants := OFDMConstants.new config.num_subcarriers
    config.pilot_subcarrier_every config.cyclic_prefix_length
    qam_modem.bits_per_symbol
  { fft := config.fft.getD (planner (2 * config.num_subcarriers))
    qam_modem := qam_modem
    constants := constants }

/-- Method `get_symbol_length`: `2 * num_subcarriers + cyclic_prefix_length`. -/
def OFDMDemodulator.get_symbol_length (d : OFDMDemodulator) : ℕ :=
  2 * d.constants.num_subcarriers + d.constants.cyclic_prefix_length

/-- Cyclic-prefix removal: the source copies `input[cyclic_prefix_length..]`
into a fresh buffer of `2 * num_subcarriers` samples. -/
def strip_cp (d : OFDMDemodulator) (input : List ℝ) : List ℝ :=
  input.drop d.constants.cyclic_prefix_length

/-- The maximum magnitude over the frequency bins:
`output_buffer.iter().map(|c| c.norm()).fold(0.0, f32::max)`. -/
noncomputable def maxMagnitude (l : List ℂ) : ℝ :=
  (l.map Complex.abs).foldl max 0

/-- The equalization step of `demodulate_ofdm_symbol`: if the maximum
magnitude is strictly positive, every bin is divided by `max_value / 3.0`;
otherwise the buffer is untouched. -/
noncomputable def equalize (out : List ℂ) : List ℂ :=
  if 0 < maxMagnitude out then
    out.map (fun v => v / ((maxMagnitude out / 3 : ℝ) : ℂ))
  else out

/-- Method `demodulate_ofdm_symbol`: strip the prefix, forward transform, equalize,
extract the data bins.  Rust panics (slice-length mismatch in
`clone_from_slice`, `unwrap` of `process`, out-of-range indexing) are
modelled as `none`. -/
noncomputable def demodulate_ofdm_symbol (d : OFDMDemodulator)
    (input : List ℝ) : Option (List ℂ) :=
  let input_no_cp := strip_cp d input
  if input_no_cp.length = 2 * d.constants.num_subcarriers then
    match d.fft.process input_no_cp with
    | some output_buffer =>
        let eq := equalize output_buffer
        if d.constants.data_subcarrier_indices.all (fun i => decide (i < eq.length)) then
          some (d.constants.data_subcarrier_indices.map (fun i => eq.getD i 0))
        else none
    | none => none
  else none

/-- Method `demodulate_symbol_from_buffer`: the public operation; the initial length
check panics (here: `none`) on any buffer whose length is not
`get_symbol_length()`. -/
noncomputable def demodulate_symbol_from_buffer (d : OFDMDemodulator)
    (input_buffer : List ℝ) : Option (List ℕ) :=
  if input_buffer.length = d.get_symbol_length then
    match demodulate_ofdm_symbol d input_buffer with
    | some demodulated_symbol => some (d.qam_modem.demodulate demodulated_symbol)
    | none => none
  else none

/-- The Rust call `demodulator.demodulate_symbol_from_buffer(&input)` takes
`&self` and `&[f32]` (immutable borrows); rendered as explicit state passing
the call returns the demodulator and the buffer unchanged next to the
output. -/
noncomputable def demodulate_call (d : OFDMDemodulator) (input : List ℝ) :
    OFDMDemodulator × List ℝ × Option (List ℕ) :=
  (d, input, demodulate_symbol_from_buffer d input)

/- ### Frequency-domain vector and the modulator (modelled from the spec) -/

/-- Modelled from the spec (§4.3 step 2): the value a modulator places on
bin `i`: the fixed pilot reference value `1.0` on pilot bins
(`PILOT_VALUE_TO_BE_CHANGED` in the source is `1.0 + 0.0i`), the next QAM
point on data bins, zero on guard bins and any unused remainder. -/
def binValue (n pe : ℕ) (pts : List ℂ) (i : ℕ) : ℂ :=
  if i ∈ pilotIdx n pe then 1
  else if i ∈ dataIdx n pe then pts.getD ((dataIdx n pe).indexOf i) 0
  else 0

/-- Modelled from the spec: the full frequency-domain vector of length
`num_subcarriers + 1`. -/
def freqVec (n pe : ℕ) (pts : List ℂ) : List ℂ :=
  (List.range (n + 1)).map (binValue n pe pts)

/-- The OFDM modulator (source file not in `src/`). -/
structure OFDMModulator where
  ifft : ComplexToReal
  qam_modem : QAMModem
  constants : OFDMConstants

/-- Configuration for the OFDM modulator. -/
structure OFDMModulatorConfig where
  num_subcarriers : ℕ
  cyclic_prefix_length : ℕ
  pilot_subcarrier_every : ℕ
  qam_order : QAMOrder
  fft : Option ComplexToReal

/-- Modelled from the spec: modulator construction, symmetric to
`OFDMDemodulator::new`. -/
def OFDMModulator.new (config : OFDMModulatorConfig)
    (planner : ℕ → ComplexToReal) : OFDMModulator :=
  let qam_modem := QAMModem.new config.qam_order
  let constants := OFDMConstants.new config.num_subcarriers
    config.pilot_subcarrier_every config.cyclic_prefix_length
    qam_modem.bits_per_symbol
  { ifft := config.fft.getD (planner (2 * config.num_subcarriers))
    qam_modem := qam_modem
    constants := constants }

/-- Modelled from the spec: `getSymbolLength()` must equal the
demodulator's computation for any paired configuration. -/
def OFDMModulator.get_symbol_length (m : OFDMModulator) : ℕ :=
  2 * m.constants.num_subcarriers + m.constants.cyclic_prefix_length

/-- Modelled from the spec (§4.3): `modulateBufferAsSymbol` — exact-length
check on the data bytes (fatal precondition), QAM modulation, frequency
vector assembly, inverse transform, cyclic prefix prepended from the last
`cyclic_prefix_length` time samples. -/
def OFDMModulator.modulate_buffer_as_symbol (m : OFDMModulator)
    (data_bytes : List ℕ) : Option (List ℝ) :=
  if data_bytes.length = m.constants.data_capacity then
    let pts := m.qam_modem.modulate data_bytes
    let freq := freqVec m.constants.num_subcarriers
      m.constants.pilot_subcarrier_every pts
    match m.ifft.process freq with
    | some time =>
        if time.length = 2 * m.constants.num_subcarriers then
          some (time.drop (2 * m.constants.num_subcarriers -
            m.constants.cyclic_prefix_length) ++ time)
        else none
    | none => none
  else none

/-- Demodulator over an injected engine (the paths the claims exercise). -/
noncomputable def mkDemod (n cp pe : ℕ) (o : QAMOrder) (f : RealToComplex) :
    OFDMDemodulator :=
  OFDMDemodulator.new ⟨n, cp, pe, o, some f⟩ (fun _ => f)

/-- Modulator over an injected engine. -/
def mkModulator (n cp pe : ℕ) (o : QAMOrder) (f : ComplexToReal) :
    OFDMModulator :=
  OFDMModulator.new ⟨n, cp, pe, o, some f⟩ (fun _ => f)

/- ### Facts about the running maximum and the equalizer -/

theorem foldl_max_le {l : List ℝ} {a B : ℝ} (ha : a ≤ B)
    (h : ∀ x ∈ l, x ≤ B) : l.foldl max a ≤ B := by
  induction l generalizing a with
  | nil => exact ha
  | cons x xs ih =>
      exact ih (max_le ha (h x (List.mem_cons_self x xs)))
        (fun y hy => h y (List.mem_cons_of_mem x hy))

theorem le_foldl_max_init (l : List ℝ) (a : ℝ) : a ≤ l.foldl max a := by
  induction l generalizing a with
  | nil => exact le_rfl
  | cons x xs ih => exact le_trans (le_max_left a x) (ih (max a x))

theorem le_foldl_max_mem {l : List ℝ} {x : ℝ} (a : ℝ) (h : x ∈ l) :
    x ≤ l.foldl max a := by
  induction l generalizing a with
  | nil => cases h
  | cons y ys ih =>
      rcases List.mem_cons.mp h with rfl | hmem
      · exact le_trans (le_max_right a x) (le_foldl_max_init ys (max a x))
      · exact ih (max a y) hmem

theorem foldl_max_choice (l : List ℝ) (a : ℝ) :
    l.foldl max a = a ∨ l.foldl max a ∈ l := by
  induction l generalizing a with
  | nil => exact Or.inl rfl
  | cons x xs ih =>
      rcases ih (max a x) with h | h
      · show xs.foldl max (max a x) = a ∨ _
        rcases max_choice a x with hm | hm
        · exact Or.inl (h.trans hm)
        · exact Or.inr (List.mem_cons.mpr (Or.inl (h.trans hm)))
      · exact Or.inr (List.mem_cons_of_mem x h)

theorem foldl_max_map_mul (c : ℝ) (hc : 0 ≤ c) (l : List ℝ) (a : ℝ) :
    (l.map (fun x => c * x)).foldl max (c * a) = c * l.foldl max a := by
  induction l generalizing a with
  | nil => rfl
  | cons x xs ih =>
      show (xs.map _).foldl max (max (c * a) (c * x)) = _
      rw [← mul_max_of_nonneg a x hc, ih (max a x)]
      rfl

theorem maxMagnitude_nonneg (l : List ℂ) : 0 ≤ maxMagnitude l :=
  le_foldl_max_init (l.map Complex.abs) 0

theorem abs_le_maxMagnitude {l : List ℂ} {z : ℂ} (h : z ∈ l) :
    Complex.abs z ≤ maxMagnitude l :=
  le_foldl_max_mem 0 (List.mem_map_of_mem Complex.abs h)

theorem maxMagnitude_eq {l : List ℂ} {B : ℝ} (hB : 0 ≤ B)
    (hub : ∀ z ∈ l, Complex.abs z ≤ B) (hmem : ∃ z ∈ l, Complex.abs z = B) :
    maxMagnitude l = B := by
  refine le_antisymm (foldl_max_le hB ?_) ?_
  · intro x hx
    rcases List.mem_map.mp hx with ⟨z, hz, rfl⟩
    exact hub z hz
  · rcases hmem with ⟨z, hz, hzB⟩
    exact hzB ▸ abs_le_maxMagnitude hz

theorem maxMagnitude_map_mul (c : ℝ) (hc : 0 ≤ c) (l : List ℂ) :
    maxMagnitude (l.map (fun z => ((c : ℝ) : ℂ) * z)) = c * maxMagnitude l := by
  unfold maxMagnitude
  rw [List.map_map]
  have habs : (Complex.abs ∘ fun z => ((c : ℝ) : ℂ) * z) =
      fun z => c * Complex.abs z := by
    funext z
    simp [map_mul, Complex.abs_ofReal, abs_of_nonneg hc]
  rw [habs]
  have := foldl_max_map_mul c hc (l.map Complex.abs) 0
  rw [mul_zero] at this
  rw [← this, List.map_map]
  rfl

theorem equalize_of_pos (out : List ℂ) (h : 0 < maxMagnitude out) :
    equalize out = out.map (fun v => v / ((maxMagnitude out / 3 : ℝ) : ℂ)) :=
  if_pos h

theorem equalize_of_zero (out : List ℂ) (h : maxMagnitude out = 0) :
    equalize out = out := by
  unfold equalize
  rw [h]
  simp

@[simp] theorem length_equalize (out : List ℂ) :
    (equalize out).length = out.length := by
  unfold equalize
  split <;> simp

theorem getD_lt (l : List α) (d : α) (i : ℕ) (h : i < l.length) :
    l.getD i d = l[i] := by
  simp [List.getD_eq_getElem?_getD, List.getElem?_eq_getElem h]

theorem getD_ge (l : List α) (d : α) (i : ℕ) (h : l.length ≤ i) :
    l.getD i d = d := by
  simp [List.getD_eq_getElem?_getD, List.getElem?_eq_none h]

theorem getD_map_zero (f : ℂ → ℂ) (hf : f 0 = 0) (l : List ℂ) (i : ℕ) :
    (l.map f).getD i 0 = f (l.getD i 0) := by
  rcases lt_or_le i l.length with h | h
  · rw [getD_lt _ _ _ (by simpa using h), getD_lt _ _ _ h, List.getElem_map]
  · rw [getD_ge _ _ _ (by simpa using h), getD_ge _ _ _ h, hf]

/- ### Square-root facts for the equalizer scale 3 / (3√2) = 1/√2 -/

theorem sqrt_two_pos : 0 < Real.sqrt 2 := Real.sqrt_pos.mpr (by norm_num)

theorem sqrt_nine : Real.sqrt 9 = 3 := by
  rw [show (9 : ℝ) = 3 ^ 2 by norm_num, Real.sqrt_sq (by norm_num : (0:ℝ) ≤ 3)]

theorem sqrt_eighteen : Real.sqrt 18 = 3 * Real.sqrt 2 := by
  rw [show (18 : ℝ) = 9 * 2 by norm_num,
    Real.sqrt_mul (by norm_num : (0:ℝ) ≤ 9) 2, sqrt_nine]

theorem two_lt_three_div_sqrt_two : (2 : ℝ) < 3 / Real.sqrt 2 := by
  rw [lt_div_iff₀ sqrt_two_pos]
  nlinarith [Real.sq_sqrt (show (0:ℝ) ≤ 2 by norm_num), Real.sqrt_nonneg 2]

theorem one_div_sqrt_two_lt_two : 1 / Real.sqrt 2 < 2 := by
  rw [div_lt_iff₀ sqrt_two_pos]
  nlinarith [Real.sq_sqrt (show (0:ℝ) ≤ 2 by norm_num), Real.sqrt_nonneg 2]

theorem one_div_sqrt_two_pos : 0 < 1 / Real.sqrt 2 := by positivity

/-- The nearest-level decision undoes the corner-normalised equalizer scale
(division by √2) on every 16-QAM level. -/
theorem decideLevel16_scaled (l : ℤ) (h : l = -3 ∨ l = -1 ∨ l = 1 ∨ l = 3) :
    decideLevel16 ((l : ℝ) / Real.sqrt 2) = l := by
  have h2 := two_lt_three_div_sqrt_two
  have h3 := one_div_sqrt_two_lt_two
  have h4 := one_div_sqrt_two_pos
  have h5 := sqrt_two_pos
  rcases h with rfl | rfl | rfl | rfl
  · unfold decideLevel16
    rw [if_pos]
    push_cast
    rw [neg_div]
    linarith
  · unfold decideLevel16
    rw [if_neg, if_pos]
    · push_cast
      rw [neg_div]
      linarith [div_pos (show (0:ℝ) < 1 by norm_num) h5]
    · push_cast
      rw [neg_div, not_lt]
      linarith
  · unfold decideLevel16
    rw [if_neg, if_neg, if_pos]
    · push_cast
      linarith
    · push_cast
      rw [not_lt]
      linarith
    · push_cast
      rw [not_lt]
      linarith
  · unfold decideLevel16
    rw [if_neg, if_neg, if_neg]
    · push_cast
      rw [not_lt]
      linarith
    · push_cast
      rw [not_lt]
      linarith
    · push_cast
      rw [not_lt]
      linarith

theorem lv16_cases (c : ℕ) : lv16 c = -3 ∨ lv16 c = -1 ∨ lv16 c = 1 ∨ lv16 c = 3 := by
  unfold lv16
  split_ifs <;> simp

theorem code16_lv16 (c : ℕ) (h : c < 4) : code16 (lv16 c) = c := by
  interval_cases c <;> decide

theorem abs_mk (a b : ℝ) : Complex.abs ⟨a, b⟩ = Real.sqrt (a * a + b * b) := by
  rw [Complex.abs_apply, Complex.normSq_mk]

/-- Every 16-QAM constellation point lies within the corner magnitude 3√2. -/
theorem abs_qamPoint16_le (g : ℕ) :
    Complex.abs (qamPoint QAMOrder.QAM16 g) ≤ 3 * Real.sqrt 2 := by
  unfold qamPoint
  rw [abs_mk, ← sqrt_eighteen]
  apply Real.sqrt_le_sqrt
  have h1 := lv16_cases (g / 4 % 4)
  have h2 := lv16_cases (g % 4)
  have e1 : (qamPointZ QAMOrder.QAM16 g).1 = lv16 (g / 4 % 4) := rfl
  have e2 : (qamPointZ QAMOrder.QAM16 g).2 = lv16 (g % 4) := rfl
  rcases h1 with h1 | h1 | h1 | h1 <;> rcases h2 with h2 | h2 | h2 | h2 <;>
    rw [e1, e2, h1, h2] <;> norm_num

/-- The four corner points of the 16-QAM grid have magnitude exactly 3√2. -/
theorem abs_qamPoint16_corner (g : ℕ) (h : g = 0 ∨ g = 2 ∨ g = 8 ∨ g = 10) :
    Complex.abs (qamPoint QAMOrder.QAM16 g) = 3 * Real.sqrt 2 := by
  rcases h with rfl | rfl | rfl | rfl <;>
    · unfold qamPoint
      rw [abs_mk, ← sqrt_eighteen]
      norm_num [qamPointZ, lv16]

/-- The nearest-point decision recovers the bit group from a 16-QAM point
scaled down by √2. -/
theorem decidePoint16_scaled (g : ℕ) (hg : g < 16) :
    decidePoint QAMOrder.QAM16
      (qamPoint QAMOrder.QAM16 g / ((Real.sqrt 2 : ℝ) : ℂ)) = g := by
  unfold qamPoint
  show 4 * code16 (decideLevel16 _) + code16 (decideLevel16 _) = g
  rw [Complex.div_ofReal_re, Complex.div_ofReal_im]
  show 4 * code16 (decideLevel16 ((lv16 (g / 4 % 4) : ℝ) / Real.sqrt 2)) +
    code16 (decideLevel16 ((lv16 (g % 4) : ℝ) / Real.sqrt 2)) = g
  rw [decideLevel16_scaled _ (lv16_cases _), decideLevel16_scaled _ (lv16_cases _),
    code16_lv16 _ (Nat.mod_lt _ (by norm_num)), code16_lv16 _ (Nat.mod_lt _ (by norm_num))]
  omega

/- ### Facts about the frequency-domain vector -/

@[simp] theorem length_freqVec (n pe : ℕ) (pts : List ℂ) :
    (freqVec n pe pts).length = n + 1 := by
  simp [freqVec]

theorem freqVec_getD (n pe : ℕ) (pts : List ℂ) (i : ℕ) (h : i < n + 1) :
    (freqVec n pe pts).getD i 0 = binValue n pe pts i := by
  rw [getD_lt _ _ _ (by simpa using h)]
  simp [freqVec]

theorem binValue_zero (n pe : ℕ) (pts : List ℂ) : binValue n pe pts 0 = 0 := by
  unfold binValue
  rw [if_neg (zero_not_mem_pilotIdx n pe), if_neg (zero_not_mem_dataIdx n pe)]

theorem binValue_top (n pe : ℕ) (pts : List ℂ) : binValue n pe pts n = 0 := by
  unfold binValue
  rw [if_neg (top_not_mem_pilotIdx n pe), if_neg (top_not_mem_dataIdx n pe)]

theorem binValue_data (n pe : ℕ) (pts : List ℂ) (k : ℕ)
    (hk : k < (dataIdx n pe).length) :
    binValue n pe pts ((dataIdx n pe)[k]) = pts.getD k 0 := by
  have hmem : (dataIdx n pe)[k] ∈ dataIdx n pe := List.getElem_mem hk
  unfold binValue
  rw [if_neg (not_pilot_of_data _ _ _ hmem), if_pos hmem,
    List.indexOf_getElem (dataIdx_nodup n pe) k hk]

theorem one_le_three_sqrt_two : (1 : ℝ) ≤ 3 * Real.sqrt 2 := by
  nlinarith [Real.sq_sqrt (show (0:ℝ) ≤ 2 by norm_num), Real.sqrt_nonneg 2]

theorem abs_binValue_le (n pe : ℕ) (pts : List ℂ) (B : ℝ) (hB1 : 1 ≤ B)
    (hpts : ∀ p ∈ pts, Complex.abs p ≤ B) (i : ℕ) :
    Complex.abs (binValue n pe pts i) ≤ B := by
  have hB0 : (0 : ℝ) ≤ B := le_trans zero_le_one hB1
  unfold binValue
  split_ifs with h1 h2
  · simpa using hB1
  · rcases lt_or_le ((dataIdx n pe).indexOf i) pts.length with h | h
    · rw [getD_lt _ _ _ h]
      exact hpts _ (List.getElem_mem h)
    · rw [getD_ge _ _ _ h]
      simpa using hB0
  · simpa using hB0

/-- With a corner point among the data and all points inside the grid, the
maximum bin magnitude of the assembled frequency vector is the corner
magnitude 3√2 (guards are 0 and pilots are 1 ≤ 3√2). -/
theorem maxMagnitude_freqVec_corner (n pe : ℕ) (pts : List ℂ)
    (hub : ∀ p ∈ pts, Complex.abs p ≤ 3 * Real.sqrt 2)
    (hcorner : ∃ k, k < (dataIdx n pe).length ∧
      Complex.abs (pts.getD k 0) = 3 * Real.sqrt 2) :
    maxMagnitude (freqVec n pe pts) = 3 * Real.sqrt 2 := by
  apply maxMagnitude_eq (le_trans zero_le_one one_le_three_sqrt_two)
  · intro z hz
    rcases List.mem_map.mp hz with ⟨i, _, rfl⟩
    exact abs_binValue_le n pe pts _ one_le_three_sqrt_two hub i
  · rcases hcorner with ⟨k, hk, habs⟩
    refine ⟨binValue n pe pts ((dataIdx n pe)[k]), ?_, ?_⟩
    · apply List.mem_map_of_mem
      apply List.mem_range.mpr
      have := dataIdx_lt n pe _ (List.getElem_mem hk)
      omega
    · rw [binValue_data n pe pts k hk]
      exact habs

/- ### A concrete invertible transform pair (witness engines)

The real FFT engine is external; for witnesses we use the interleaving
bijection between `n+1` complex bins (with real first and last bin, as every
assembled frequency vector has) and `2n` real samples.  It satisfies the
engine interface and inverts exactly, a legitimate injected engine pair. -/

/-- Real samples of the middle bins: alternating re/im, last bin real only. -/
def cEncodeMid : List ℂ → List ℝ
  | [] => []
  | [z] => [z.re]
  | z :: zs => z.re :: z.im :: cEncodeMid zs

/-- Complex bins to `2n` real samples (first bin contributes only its real
part). -/
def cEncode : List ℂ → List ℝ
  | [] => []
  | z :: zs => z.re :: cEncodeMid zs

/-- Inverse of `cEncodeMid`. -/
def rDecodeMid : List ℝ → List ℂ
  | [] => []
  | [y] => [⟨y, 0⟩]
  | a :: b :: ws => ⟨a, b⟩ :: rDecodeMid ws

/-- Inverse of `cEncode`. -/
def rDecode : List ℝ → List ℂ
  | [] => []
  | x :: ws => ⟨x, 0⟩ :: rDecodeMid ws

theorem pairRec {P : List α → Prop} (h0 : P []) (h1 : ∀ y, P [y])
    (h2 : ∀ a b ws, P ws → P (a :: b :: ws)) : ∀ l, P l
  | [] => h0
  | [y] => h1 y
  | a :: b :: ws => h2 a b ws (pairRec h0 h1 h2 ws)

theorem length_cEncodeMid : ∀ l : List ℂ, l ≠ [] →
    (cEncodeMid l).length = 2 * l.length - 1 := by
  intro l
  induction l with
  | nil => intro h; exact absurd rfl h
  | cons z zs ih =>
      intro _
      cases zs with
      | nil => rfl
      | cons w ws =>
          show (z.re :: z.im :: cEncodeMid (w :: ws)).length = _
          have := ih (by simp)
          simp only [List.length_cons] at this ⊢
          omega

theorem length_cEncode (l : List ℂ) (h : 2 ≤ l.length) :
    (cEncode l).length = 2 * (l.length - 1) := by
  cases l with
  | nil => simp at h
  | cons z zs =>
      show (z.re :: cEncodeMid zs).length = _
      have hzs : zs ≠ [] := by
        intro hcontra
        subst hcontra
        simp at h
      have := length_cEncodeMid zs hzs
      have hlen : 1 ≤ zs.length := List.length_pos.mpr hzs
      simp only [List.length_cons] at this ⊢
      omega

theorem length_rDecodeMid : ∀ l : List ℝ, (rDecodeMid l).length = (l.length + 1) / 2 := by
  refine pairRec ?_ ?_ ?_
  · rfl
  · intro y
    show ([(⟨y, 0⟩ : ℂ)]).length = _
    simp
  · intro a b ws ih
    show (⟨a, b⟩ :: rDecodeMid ws : List ℂ).length = _
    simp only [List.length_cons, ih]
    omega

theorem rDecodeMid_cEncodeMid : ∀ l : List ℂ, l ≠ [] →
    (l.getLast?.getD 0).im = 0 → rDecodeMid (cEncodeMid l) = l := by
  intro l
  induction l with
  | nil => intro h; exact absurd rfl h
  | cons z zs ih =>
      intro _ hlast
      cases zs with
      | nil =>
          show rDecodeMid [z.re] = [z]
          show [(⟨z.re, 0⟩ : ℂ)] = [z]
          have hzim : z.im = 0 := by simpa using hlast
          rw [← hzim]
      | cons w ws =>
          show rDecodeMid (z.re :: z.im :: cEncodeMid (w :: ws)) = _
          show (⟨z.re, z.im⟩ : ℂ) :: rDecodeMid (cEncodeMid (w :: ws)) = _
          rw [ih (by simp) (by simpa using hlast)]

theorem rDecode_cEncode (v : List ℂ) (h2 : 2 ≤ v.length)
    (h0 : (v.getD 0 0).im = 0) (hN : (v.getLast?.getD 0).im = 0) :
    rDecode (cEncode v) = v := by
  cases v with
  | nil => simp at h2
  | cons z zs =>
      show rDecode (z.re :: cEncodeMid zs) = _
      show (⟨z.re, 0⟩ : ℂ) :: rDecodeMid (cEncodeMid zs) = _
      have hzs : zs ≠ [] := by
        intro hcontra
        subst hcontra
        simp at h2
      have hzim : z.im = 0 := by simpa using h0
      obtain ⟨w, ws, rfl⟩ := List.exists_cons_of_ne_nil hzs
      rw [rDecodeMid_cEncodeMid (w :: ws) (by simp) (by simpa using hN)]
      congr 1
      rw [← hzim]

/-- The inverse-transform witness engine of size `2n`. -/
def encodeEngine (n : ℕ) (hn : 1 ≤ n) : ComplexToReal where
  size := 2 * n
  apply := cEncode
  apply_length := by
    intro v hv
    have hv2 : v.length = n + 1 := by omega
    rw [length_cEncode v (by omega), hv2]
    omega

/-- The forward-transform witness engine of size `2n`. -/
def decodeEngine (n : ℕ) (hn : 1 ≤ n) : RealToComplex where
  size := 2 * n
  apply := rDecode
  apply_length := by
    intro w hw
    cases w with
    | nil =>
        simp at hw
        omega
    | cons x ws =>
        show ((⟨x, 0⟩ : ℂ) :: rDecodeMid ws).length = _
        simp only [List.length_cons, length_rDecodeMid]
        simp only [List.length_cons] at hw
        omega

/-- The witness pair inverts exactly (gain `c = 1`) on every frequency
vector whose first and last bins are real. -/
theorem decode_encode_eq (n : ℕ) (hn : 1 ≤ n) (v : List ℂ)
    (hv : v.length = n + 1) (h0 : (v.getD 0 0).im = 0)
    (hN : (v.getD n 0).im = 0) :
    (decodeEngine n hn).apply ((encodeEngine n hn).apply v) =
      v.map (fun z => ((1 : ℝ) : ℂ) * z) := by
  show rDecode (cEncode v) = _
  have hlast : (v.getLast?.getD 0).im = 0 := by
    have hidx : v.length - 1 = n := by omega
    rw [List.getLast?_eq_getElem? v, hidx,
      List.getElem?_eq_getElem (by omega : n < v.length)]
    rw [getD_lt _ _ _ (by omega : n < v.length)] at hN
    simpa using hN
  rw [rDecode_cEncode v (by omega) h0 hlast]
  simp

/- ### Projection lemmas for the constructed modulator/demodulator -/

@[simp] theorem mkModulator_ifft (n cp pe : ℕ) (o : QAMOrder) (f : ComplexToReal) :
    (mkModulator n cp pe o f).ifft = f := rfl

@[simp] theorem mkModulator_qam_modem (n cp pe : ℕ) (o : QAMOrder) (f : ComplexToReal) :
    (mkModulator n cp pe o f).qam_modem = QAMModem.new o := rfl

@[simp] theorem mkModulator_constants (n cp pe : ℕ) (o : QAMOrder) (f : ComplexToReal) :
    (mkModulator n cp pe o f).constants = OFDMConstants.new n pe cp o.bitsPerSymbol := rfl

@[simp] theorem mkDemod_fft (n cp pe : ℕ) (o : QAMOrder) (f : RealToComplex) :
    (mkDemod n cp pe o f).fft = f := rfl

@[simp] theorem mkDemod_qam_modem (n cp pe : ℕ) (o : QAMOrder) (f : RealToComplex) :
    (mkDemod n cp pe o f).qam_modem = QAMModem.new o := rfl

@[simp] theorem mkDemod_constants (n cp pe : ℕ) (o : QAMOrder) (f : RealToComplex) :
    (mkDemod n cp pe o f).constants = OFDMConstants.new n pe cp o.bitsPerSymbol := rfl

@[simp] theorem constants_new_num (n pe cp b : ℕ) :
    (OFDMConstants.new n pe cp b).num_subcarriers = n := rfl

@[simp] theorem constants_new_pe (n pe cp b : ℕ) :
    (OFDMConstants.new n pe cp b).pilot_subcarrier_every = pe := rfl

@[simp] theorem constants_new_cp (n pe cp b : ℕ) :
    (OFDMConstants.new n pe cp b).cyclic_prefix_length = cp := rfl

@[simp] theorem constants_new_bits (n pe cp b : ℕ) :
    (OFDMConstants.new n pe cp b).bits_per_symbol = b := rfl

@[simp] theorem constants_new_data (n pe cp b : ℕ) :
    (OFDMConstants.new n pe cp b).data_subcarrier_indices = dataIdx n pe := rfl

theorem constants_new_capacity (n pe cp b : ℕ) :
    (OFDMConstants.new n pe cp b).data_capacity = (dataIdx n pe).length * b / 8 := rfl

/- ### The noiseless pipeline, reduced to frequency-domain arithmetic -/

/-- Under an exactly inverting transform pair with positive gain `c`, a
modulate-then-demodulate round trip equals QAM demodulation of the equalized
scaled frequency vector extracted at the data indices. -/
theorem pipeline_eq (n cp pe : ℕ) (o : QAMOrder) (ifft : ComplexToReal)
    (fft : RealToComplex) (c : ℝ) (bytes : List ℕ)
    (hcp : cp ≤ 2 * n)
    (hifft : ifft.size = 2 * n) (hfft : fft.size = 2 * n)
    (hlen : bytes.length = (OFDMConstants.new n pe cp o.bitsPerSymbol).data_capacity)
    (hinv : ∀ v : List ℂ, v.length = n + 1 → (v.getD 0 0).im = 0 →
      (v.getD n 0).im = 0 →
      fft.apply (ifft.apply v) = v.map (fun z => ((c : ℝ) : ℂ) * z)) :
    ∃ wave : List ℝ,
      (mkModulator n cp pe o ifft).modulate_buffer_as_symbol bytes = some wave ∧
      demodulate_symbol_from_buffer (mkDemod n cp pe o fft) wave =
        some (qamDemodulate o ((dataIdx n pe).map (fun i =>
          (equalize ((freqVec n pe ((QAMModem.new o).modulate bytes)).map
            (fun z => ((c : ℝ) : ℂ) * z))).getD i 0))) := by
  set pts := (QAMModem.new o).modulate bytes with hpts
  set freq := freqVec n pe pts with hfreq
  have hfreqlen : freq.length = n + 1 := length_freqVec n pe pts
  have hproc1 : ifft.process freq = some (ifft.apply freq) := by
    unfold ComplexToReal.process
    rw [if_pos]
    rw [hfreqlen, hifft]
    omega
  have htimelen : (ifft.apply freq).length = 2 * n := by
    have h := ifft.apply_length freq (by rw [hfreqlen, hifft]; omega)
    rw [hifft] at h
    exact h
  set time := ifft.apply freq with htime
  set pre := time.drop (2 * n - cp) with hpre
  have hprelen : pre.length = cp := by
    rw [hpre, List.length_drop, htimelen]
    omega
  refine ⟨pre ++ time, ?_, ?_⟩
  · unfold OFDMModulator.modulate_buffer_as_symbol
    simp only [mkModulator_ifft, mkModulator_qam_modem, mkModulator_constants,
      constants_new_num, constants_new_pe, constants_new_cp]
    rw [if_pos hlen, ← hpts, ← hfreq, hproc1]
    simp [htimelen, hpre]
  · set out := freq.map (fun z => ((c : ℝ) : ℂ) * z) with hout
    have houtlen : out.length = n + 1 := by
      rw [hout, List.length_map, hfreqlen]
    have happly : fft.apply time = out := by
      rw [htime, hout, hfreq]
      apply hinv freq hfreqlen
      · rw [hfreq, freqVec_getD n pe pts 0 (by omega), binValue_zero]
        simp
      · rw [hfreq, freqVec_getD n pe pts n (by omega), binValue_top]
        simp
    have hproc2 : fft.process time = some out := by
      unfold RealToComplex.process
      rw [if_pos (by rw [htimelen, hfft]), happly]
    have hwavelen : (pre ++ time).length =
        (mkDemod n cp pe o fft).get_symbol_length := by
      unfold OFDMDemodulator.get_symbol_length
      simp only [mkDemod_constants, constants_new_num, constants_new_cp,
        List.length_append, hprelen, htimelen]
      omega
    have hstrip : strip_cp (mkDemod n cp pe o fft) (pre ++ time) = time := by
      unfold strip_cp
      simp only [mkDemod_constants, constants_new_cp]
      exact List.drop_left' hprelen
    have hofdm : demodulate_ofdm_symbol (mkDemod n cp pe o fft) (pre ++ time) =
        some ((dataIdx n pe).map (fun i => (equalize out).getD i 0)) := by
      unfold demodulate_ofdm_symbol
      rw [hstrip]
      simp only [mkDemod_fft, mkDemod_constants, constants_new_num,
        constants_new_data]
      rw [if_pos htimelen, hproc2]
      have hall : ((dataIdx n pe).all (fun i => decide (i < (equalize out).length))) = true := by
        apply List.all_eq_true.mpr
        intro i hi
        apply decide_eq_true
        rw [length_equalize, houtlen]
        have := dataIdx_lt n pe i hi
        omega
      simp only [hall, if_true]
    unfold demodulate_symbol_from_buffer
    rw [if_pos hwavelen, hofdm]
    rfl

theorem nibbles_lt (bytes : List ℕ) : ∀ x ∈ nibbles bytes, x < 16 := by
  intro x hx
  rcases (mem_concatMap _ _ _).mp hx with ⟨b, _, hb⟩
  simp only [List.mem_cons, List.not_mem_nil, or_false] at hb
  rcases hb with rfl | rfl <;> exact Nat.mod_lt _ (by norm_num)

theorem length_nibbles (bytes : List ℕ) : (nibbles bytes).length = 2 * bytes.length := by
  apply length_concatMap_const
  intro b _
  rfl

/-- The noiseless 16-QAM round trip restores the byte buffer whenever the
transform pair inverts with a positive gain, the data capacity is
byte-aligned and at least one modulated group hits a corner of the
constellation (so the blind equalizer scale is exactly 1/√2). -/
theorem roundtrip_sixteen (n cp pe : ℕ) (ifft : ComplexToReal)
    (fft : RealToComplex) (c : ℝ) (bytes : List ℕ)
    (hcp : cp ≤ 2 * n)
    (hifft : ifft.size = 2 * n) (hfft : fft.size = 2 * n)
    (hc : 0 < c)
    (hinv : ∀ v : List ℂ, v.length = n + 1 → (v.getD 0 0).im = 0 →
      (v.getD n 0).im = 0 →
      fft.apply (ifft.apply v) = v.map (fun z => ((c : ℝ) : ℂ) * z))
    (hbytes : ∀ b ∈ bytes, b < 256)
    (hlen : bytes.length =
      (OFDMConstants.new n pe cp QAMOrder.QAM16.bitsPerSymbol).data_capacity)
    (halign : (dataIdx n pe).length = 2 * bytes.length)
    (hcorner : ∃ g0 ∈ nibbles bytes, g0 = 0 ∨ g0 = 2 ∨ g0 = 8 ∨ g0 = 10) :
    ∃ wave : List ℝ,
      (mkModulator n cp pe QAMOrder.QAM16 ifft).modulate_buffer_as_symbol bytes =
        some wave ∧
      demodulate_symbol_from_buffer (mkDemod n cp pe QAMOrder.QAM16 fft) wave =
        some bytes := by
  obtain ⟨wave, hmod, hdem⟩ := pipeline_eq n cp pe QAMOrder.QAM16 ifft fft c
    bytes hcp hifft hfft hlen hinv
  refine ⟨wave, hmod, ?_⟩
  rw [hdem]
  congr 1
  have hptsdef : (QAMModem.new QAMOrder.QAM16).modulate bytes =
      (nibbles bytes).map (qamPoint QAMOrder.QAM16) := by
    unfold QAMModem.modulate
    rw [show (QAMModem.new QAMOrder.QAM16).qam_order = QAMOrder.QAM16 from rfl,
      qamGroups_sixteen]
  rw [hptsdef]
  set g := nibbles bytes with hgdef
  set pts := g.map (qamPoint QAMOrder.QAM16) with hpts
  set freq := freqVec n pe pts with hfreq
  set out := freq.map (fun z => ((c : ℝ) : ℂ) * z) with hout
  have hg16 : ∀ x ∈ g, x < 16 := nibbles_lt bytes
  have hglen : g.length = 2 * bytes.length := length_nibbles bytes
  have hptslen : pts.length = 2 * bytes.length := by
    rw [hpts, List.length_map, hglen]
  have hub : ∀ p ∈ pts, Complex.abs p ≤ 3 * Real.sqrt 2 := by
    intro p hp
    rcases List.mem_map.mp hp with ⟨x, _, rfl⟩
    exact abs_qamPoint16_le x
  have hcornerk : ∃ k, k < (dataIdx n pe).length ∧
      Complex.abs (pts.getD k 0) = 3 * Real.sqrt 2 := by
    rcases hcorner with ⟨g0, hg0mem, hg0⟩
    rcases List.mem_iff_getElem.mp hg0mem with ⟨k, hk, hgk⟩
    refine ⟨k, by omega, ?_⟩
    have hpk : pts.getD k 0 = qamPoint QAMOrder.QAM16 g0 := by
      rw [getD_lt _ _ _ (by rw [hptslen]; omega)]
      simp only [hpts, List.getElem_map]
      rw [hgk]
    rw [hpk]
    exact abs_qamPoint16_corner g0 hg0
  have hmaxfreq : maxMagnitude freq = 3 * Real.sqrt 2 :=
    maxMagnitude_freqVec_corner n pe pts hub hcornerk
  have hmaxout : maxMagnitude out = c * (3 * Real.sqrt 2) := by
    rw [hout, maxMagnitude_map_mul c hc.le, hmaxfreq]
  have hmpos : 0 < maxMagnitude out := by
    rw [hmaxout]
    have : 0 < Real.sqrt 2 := sqrt_two_pos
    positivity
  have hscale : ((maxMagnitude out / 3 : ℝ) : ℂ) =
      ((c : ℝ) : ℂ) * ((Real.sqrt 2 : ℝ) : ℂ) := by
    rw [hmaxout]
    push_cast
    ring
  have hc0 : ((c : ℝ) : ℂ) ≠ 0 := Complex.ofReal_ne_zero.mpr (ne_of_gt hc)
  have hsyms : (((dataIdx n pe).map (fun i => (equalize out).getD i 0)).map
      (decidePoint QAMOrder.QAM16)) = g := by
    apply List.ext_getElem
    · simp only [List.length_map]
      omega
    · intro k hk1 hk2
      simp only [List.length_map] at hk1
      rw [List.getElem_map, List.getElem_map]
      have hDk : (dataIdx n pe)[k] < n + 1 := by
        have := dataIdx_lt n pe _ (List.getElem_mem hk1)
        omega
      have h1 : (equalize out).getD ((dataIdx n pe)[k]) 0 =
          (out.getD ((dataIdx n pe)[k]) 0) / ((maxMagnitude out / 3 : ℝ) : ℂ) := by
        rw [equalize_of_pos out hmpos, getD_map_zero _ (by simp)]
      have h2 : out.getD ((dataIdx n pe)[k]) 0 =
          ((c : ℝ) : ℂ) * (freq.getD ((dataIdx n pe)[k]) 0) := by
        rw [hout, getD_map_zero _ (by simp)]
      have h3 : freq.getD ((dataIdx n pe)[k]) 0 = pts.getD k 0 := by
        rw [hfreq, freqVec_getD n pe pts _ hDk, binValue_data n pe pts k hk1]
      have h4 : pts.getD k 0 = qamPoint QAMOrder.QAM16 (g[k]) := by
        rw [getD_lt _ _ _ (by rw [hptslen]; omega)]
        simp only [hpts, List.getElem_map]
      rw [h1, h2, h3, h4, hscale, mul_div_mul_left _ _ hc0]
      exact decidePoint16_scaled (g[k]) (hg16 _ (List.getElem_mem hk2))
  show qamDemodulate QAMOrder.QAM16 _ = bytes
  unfold qamDemodulate
  rw [show QAMOrder.QAM16.bitsPerSymbol = 4 from rfl, hsyms, hgdef,
    concatMap_bits_nibbles, bitsToBytes_bytesToBits bytes hbytes]

theorem maxMagnitude_replicate_zero (k : ℕ) :
    maxMagnitude (List.replicate k 0) = 0 := by
  apply le_antisymm
  · apply foldl_max_le le_rfl
    intro x hx
    rcases List.mem_map.mp hx with ⟨z, hz, rfl⟩
    rw [List.eq_of_mem_replicate hz]
    simp
  · exact maxMagnitude_nonneg _

/-- On a demodulator whose engine matches the configured transform size, a
buffer of exactly the symbol length passes every internal check: the private
OFDM step returns the extracted symbol vector and the public call returns
its QAM demodulation. -/
theorem demod_total (d : OFDMDemodulator) (n cp pe b : ℕ)
    (hconst : d.constants = OFDMConstants.new n pe cp b)
    (hsize : d.fft.size = 2 * n)
    (input : List ℝ) (hlen : input.length = 2 * n + cp) :
    demodulate_ofdm_symbol d input =
      some ((dataIdx n pe).map
        (fun i => (equalize (d.fft.apply (strip_cp d input))).getD i 0)) ∧
    demodulate_symbol_from_buffer d input =
      some (d.qam_modem.demodulate ((dataIdx n pe).map
        (fun i => (equalize (d.fft.apply (strip_cp d input))).getD i 0))) := by
  have hstriplen : (strip_cp d input).length = 2 * n := by
    unfold strip_cp
    rw [hconst]
    simp only [constants_new_cp, List.length_drop, hlen]
    omega
  have happlylen : (d.fft.apply (strip_cp d input)).length = n + 1 := by
    have h := d.fft.apply_length _ (by rw [hstriplen, hsize])
    rw [hsize] at h
    rw [h]
    omega
  have hproc : d.fft.process (strip_cp d input) =
      some (d.fft.apply (strip_cp d input)) := by
    unfold RealToComplex.process
    rw [if_pos (by rw [hstriplen, hsize])]
  have hofdm : demodulate_ofdm_symbol d input =
      some ((dataIdx n pe).map
        (fun i => (equalize (d.fft.apply (strip_cp d input))).getD i 0)) := by
    unfold demodulate_ofdm_symbol
    simp only [hconst, constants_new_num, constants_new_data]
    rw [if_pos hstriplen, hproc]
    have hall : ((dataIdx n pe).all
        (fun i => decide (i < (equalize (d.fft.apply (strip_cp d input))).length))) = true := by
      apply List.all_eq_true.mpr
      intro i hi
      apply decide_eq_true
      rw [length_equalize, happlylen]
      have := dataIdx_lt n pe i hi
      omega
    simp only [hall, if_true]
  refine ⟨hofdm, ?_⟩
  unfold demodulate_symbol_from_buffer
  rw [if_pos, hofdm]
  unfold OFDMDemodulator.get_symbol_length
  rw [hconst]
  simp only [constants_new_num, constants_new_cp]
  omega

/- ### The claims -/

/-- Claim C2: for every input buffer whose length differs from
`get_symbol_length()` (`2*num_subcarriers + cyclic_prefix_length`),
`demodulate_symbol_from_buffer` fails immediately (the Rust panic, modelled
as `none`) and produces no output, partial or otherwise. -/
theorem claim_C2_length_mismatch (d : OFDMDemodulator) (input : List ℝ)
    (h : input.length ≠ d.get_symbol_length) :
    demodulate_symbol_from_buffer d input = none := by
  unfold demodulate_symbol_from_buffer
  rw [if_neg h]

theorem claim_C2_witness :
    ([] : List ℝ).length ≠
      (mkDemod 64 4 4 QAMOrder.QAM16 (zeroEngine 128)).get_symbol_length ∧
    demodulate_symbol_from_buffer
      (mkDemod 64 4 4 QAMOrder.QAM16 (zeroEngine 128)) [] = none :=
  ⟨by decide, claim_C2_length_mismatch _ _ (by decide)⟩

/-- Claim C3: during demodulation, if the maximum magnitude over the
`numSubcarriers+1` frequency bins is strictly positive, then every bin is
scaled by `3.0 / maxMagnitude`, and after equalization the strongest bin has
magnitude exactly 3 (and no bin exceeds 3). -/
theorem claim_C3_equalize_scaling (out : List ℂ) (h : 0 < maxMagnitude out) :
    equalize out = out.map (fun v => ((3 / maxMagnitude out : ℝ) : ℂ) * v) ∧
    (∃ v ∈ equalize out, Complex.abs v = 3) ∧
    (∀ w ∈ equalize out, Complex.abs w ≤ 3) := by
  have hm0 : maxMagnitude out ≠ 0 := ne_of_gt h
  have hdiv : ∀ v : ℂ, v / ((maxMagnitude out / 3 : ℝ) : ℂ) =
      ((3 / maxMagnitude out : ℝ) : ℂ) * v := by
    intro v
    rw [div_eq_mul_inv, ← Complex.ofReal_inv, inv_div, mul_comm]
  have heq := equalize_of_pos out h
  refine ⟨?_, ?_, ?_⟩
  · rw [heq]
    exact List.map_congr_left (fun v _ => hdiv v)
  · have hchoice := foldl_max_choice (out.map Complex.abs) 0
    rcases hchoice with hc | hc
    · exact absurd hc hm0
    · rcases List.mem_map.mp hc with ⟨z, hzmem, hz⟩
      refine ⟨z / ((maxMagnitude out / 3 : ℝ) : ℂ), ?_, ?_⟩
      · rw [heq]
        exact List.mem_map_of_mem _ hzmem
      · rw [map_div₀ Complex.abs, hz, Complex.abs_ofReal, abs_of_pos (by positivity)]
        field_simp
        unfold maxMagnitude
        ring
  · intro w hw
    rw [heq] at hw
    rcases List.mem_map.mp hw with ⟨z, hzmem, rfl⟩
    rw [map_div₀ Complex.abs, Complex.abs_ofReal, abs_of_pos (by positivity),
      div_le_iff₀ (by positivity)]
    calc Complex.abs z ≤ maxMagnitude out := abs_le_maxMagnitude hzmem
    _ = 3 * (maxMagnitude out / 3) := by ring

theorem claim_C3_witness :
    0 < maxMagnitude [(4 : ℂ)] ∧
    (equalize [(4 : ℂ)] =
        [(4 : ℂ)].map (fun v => ((3 / maxMagnitude [(4 : ℂ)] : ℝ) : ℂ) * v) ∧
      (∃ v ∈ equalize [(4 : ℂ)], Complex.abs v = 3) ∧
      (∀ w ∈ equalize [(4 : ℂ)], Complex.abs w ≤ 3)) :=
  ⟨by norm_num [maxMagnitude, Complex.abs_ofNat],
    claim_C3_equalize_scaling [(4 : ℂ)]
      (by norm_num [maxMagnitude, Complex.abs_ofNat])⟩

/-- Claim C4: `get_symbol_length()` returns exactly
`2*num_subcarriers + cyclic_prefix_length` of the demodulator's
configuration, and this equals the modulator's symbol length for the
identical configuration. -/
theorem claim_C4_symbol_length (n cp pe : ℕ) (o : QAMOrder)
    (df : Option RealToComplex) (mf : Option ComplexToReal)
    (dp : ℕ → RealToComplex) (mp : ℕ → ComplexToReal) :
    (OFDMDemodulator.new ⟨n, cp, pe, o, df⟩ dp).get_symbol_length = 2 * n + cp ∧
    (OFDMModulator.new ⟨n, cp, pe, o, mf⟩ mp).get_symbol_length =
      (OFDMDemodulator.new ⟨n, cp, pe, o, df⟩ dp).get_symbol_length :=
  ⟨rfl, rfl⟩

/-- Claim C5: the symbol vector produced by demodulation has one entry per
data-subcarrier index; its `k`-th element is the equalized frequency bin at
the `k`-th data index; the data indices are in ascending order; and they are
the same canonical mapping the modulator derives for the identical
configuration. -/
theorem claim_C5_extraction (n cp pe b : ℕ) (d : OFDMDemodulator)
    (hconst : d.constants = OFDMConstants.new n pe cp b)
    (hsize : d.fft.size = 2 * n)
    (input : List ℝ) (hlen : input.length = 2 * n + cp) :
    ∃ syms, demodulate_ofdm_symbol d input = some syms ∧
      syms.length = d.constants.data_subcarrier_indices.length ∧
      (∀ k, k < syms.length →
        syms.getD k 0 = (equalize (d.fft.apply (strip_cp d input))).getD
          (d.constants.data_subcarrier_indices.getD k 0) 0) ∧
      List.Sorted (· < ·) d.constants.data_subcarrier_indices ∧
      (∀ (mp : ℕ → ComplexToReal) (mfopt : Option ComplexToReal),
        (OFDMModulator.new ⟨n, cp, pe, d.qam_modem.qam_order, mfopt⟩
            mp).constants.data_subcarrier_indices =
          d.constants.data_subcarrier_indices) := by
  obtain ⟨h1, _⟩ := demod_total d n cp pe b hconst hsize input hlen
  refine ⟨_, h1, ?_, ?_, ?_, ?_⟩
  · rw [hconst]
    simp
  · intro k hk
    simp only [List.length_map] at hk
    rw [getD_lt _ _ _ (by simpa using hk), List.getElem_map, hconst]
    simp only [constants_new_data]
    rw [getD_lt _ _ _ hk]
  · rw [hconst]
    simp only [constants_new_data]
    exact dataIdx_sorted n pe
  · intro mp mfopt
    rw [hconst]
    rfl

theorem claim_C5_witness :
    (mkDemod 6 4 4 QAMOrder.QAM16 (zeroEngine 12)).constants =
      OFDMConstants.new 6 4 4 QAMOrder.QAM16.bitsPerSymbol ∧
    (mkDemod 6 4 4 QAMOrder.QAM16 (zeroEngine 12)).fft.size = 2 * 6 ∧
    (List.replicate 16 (0 : ℝ)).length = 2 * 6 + 4 ∧
    (∃ syms, demodulate_ofdm_symbol (mkDemod 6 4 4 QAMOrder.QAM16 (zeroEngine 12))
        (List.replicate 16 (0 : ℝ)) = some syms ∧
      syms.length = (mkDemod 6 4 4 QAMOrder.QAM16
        (zeroEngine 12)).constants.data_subcarrier_indices.length ∧
      (∀ k, k < syms.length →
        syms.getD k 0 = (equalize ((mkDemod 6 4 4 QAMOrder.QAM16
            (zeroEngine 12)).fft.apply (strip_cp (mkDemod 6 4 4 QAMOrder.QAM16
            (zeroEngine 12)) (List.replicate 16 (0 : ℝ))))).getD
          ((mkDemod 6 4 4 QAMOrder.QAM16
            (zeroEngine 12)).constants.data_subcarrier_indices.getD k 0) 0) ∧
      List.Sorted (· < ·) (mkDemod 6 4 4 QAMOrder.QAM16
        (zeroEngine 12)).constants.data_subcarrier_indices ∧
      (∀ (mp : ℕ → ComplexToReal) (mfopt : Option ComplexToReal),
        (OFDMModulator.new ⟨6, 4, 4, (mkDemod 6 4 4 QAMOrder.QAM16
            (zeroEngine 12)).qam_modem.qam_order, mfopt⟩
            mp).constants.data_subcarrier_indices =
          (mkDemod 6 4 4 QAMOrder.QAM16
            (zeroEngine 12)).constants.data_subcarrier_indices)) :=
  ⟨rfl, by norm_num [zeroEngine], by simp,
    claim_C5_extraction 6 4 4 QAMOrder.QAM16.bitsPerSymbol _ rfl (by norm_num [zeroEngine])
      _ (by simp)⟩

/-- Claim C6: for every input buffer of the required length, the samples
handed to the forward transform are exactly the trailing
`2*numSubcarriers` samples of the input — the input with its first
`cyclicPrefixLength` samples (the cyclic prefix) discarded. -/
theorem claim_C6_cp_removal (d : OFDMDemodulator) (input : List ℝ)
    (h : input.length =
      2 * d.constants.num_subcarriers + d.constants.cyclic_prefix_length) :
    (strip_cp d input).length = 2 * d.constants.num_subcarriers ∧
    strip_cp d input = input.drop d.constants.cyclic_prefix_length ∧
    strip_cp d input = input.drop (input.length - 2 * d.constants.num_subcarriers) ∧
    input.take d.constants.cyclic_prefix_length ++ strip_cp d input = input := by
  refine ⟨?_, rfl, ?_, ?_⟩
  · unfold strip_cp
    rw [List.length_drop, h]
    omega
  · unfold strip_cp
    congr 1
    omega
  · exact List.take_append_drop _ input

theorem claim_C6_witness :
    (List.replicate 16 (0 : ℝ)).length =
      2 * (mkDemod 6 4 4 QAMOrder.QAM16 (zeroEngine 12)).constants.num_subcarriers +
        (mkDemod 6 4 4 QAMOrder.QAM16 (zeroEngine 12)).constants.cyclic_prefix_length ∧
    ((strip_cp (mkDemod 6 4 4 QAMOrder.QAM16 (zeroEngine 12))
        (List.replicate 16 (0 : ℝ))).length =
      2 * (mkDemod 6 4 4 QAMOrder.QAM16 (zeroEngine 12)).constants.num_subcarriers ∧
    strip_cp (mkDemod 6 4 4 QAMOrder.QAM16 (zeroEngine 12))
        (List.replicate 16 (0 : ℝ)) =
      (List.replicate 16 (0 : ℝ)).drop
        (mkDemod 6 4 4 QAMOrder.QAM16 (zeroEngine 12)).constants.cyclic_prefix_length ∧
    strip_cp (mkDemod 6 4 4 QAMOrder.QAM16 (zeroEngine 12))
        (List.replicate 16 (0 : ℝ)) =
      (List.replicate 16 (0 : ℝ)).drop
        ((List.replicate 16 (0 : ℝ)).length -
          2 * (mkDemod 6 4 4 QAMOrder.QAM16 (zeroEngine 12)).constants.num_subcarriers) ∧
    (List.replicate 16 (0 : ℝ)).take
        (mkDemod 6 4 4 QAMOrder.QAM16 (zeroEngine 12)).constants.cyclic_prefix_length ++
      strip_cp (mkDemod 6 4 4 QAMOrder.QAM16 (zeroEngine 12))
        (List.replicate 16 (0 : ℝ)) = List.replicate 16 (0 : ℝ)) :=
  ⟨by simp, claim_C6_cp_removal _ _ (by simp)⟩

/-- Claim C7: an all-zero frequency spectrum is handled locally: the
equalizer leaves every bin unchanged (no division by zero is performed), and
a demodulation whose forward transform yields the all-zero spectrum
completes normally, returning bytes rather than an error. -/
theorem claim_C7_zero_spectrum :
    (∀ v : List ℂ, maxMagnitude v = 0 → equalize v = v) ∧
    (∀ n cp pe : ℕ, ∀ o : QAMOrder, ∀ input : List ℝ,
      input.length = 2 * n + cp →
      ∃ bs, demodulate_symbol_from_buffer
        (mkDemod n cp pe o (zeroEngine (2 * n))) input = some bs) := by
  constructor
  · exact fun v h => equalize_of_zero v h
  · intro n cp pe o input hlen
    obtain ⟨_, h2⟩ := demod_total (mkDemod n cp pe o (zeroEngine (2 * n)))
      n cp pe o.bitsPerSymbol rfl rfl input hlen
    exact ⟨_, h2⟩

theorem claim_C7_witness :
    maxMagnitude (List.replicate 2 (0 : ℂ)) = 0 ∧
    equalize (List.replicate 2 (0 : ℂ)) = List.replicate 2 (0 : ℂ) ∧
    (List.replicate 16 (0 : ℝ)).length = 2 * 6 + 4 ∧
    ∃ bs, demodulate_symbol_from_buffer
      (mkDemod 6 4 4 QAMOrder.QAM16 (zeroEngine (2 * 6)))
      (List.replicate 16 (0 : ℝ)) = some bs := by
  have hz := maxMagnitude_replicate_zero 2
  exact ⟨hz, claim_C7_zero_spectrum.1 _ hz, by simp,
    claim_C7_zero_spectrum.2 6 4 4 QAMOrder.QAM16 _ (by simp)⟩

/-- Claim C9: `demodulate_symbol_from_buffer` is a pure function of the
demodulator's fixed configuration and the input buffer: equal inputs give
equal byte vectors, and the call (taking `&self` and `&[f32]`, rendered as
state passing) leaves both the demodulator and the caller's buffer
unchanged. -/
theorem claim_C9_pure (d₁ d₂ : OFDMDemodulator) (b₁ b₂ : List ℝ)
    (hd : d₁ = d₂) (hb : b₁ = b₂) :
    demodulate_symbol_from_buffer d₁ b₁ = demodulate_symbol_from_buffer d₂ b₂ ∧
    demodulate_call d₁ b₁ = (d₁, b₁, demodulate_symbol_from_buffer d₁ b₁) := by
  subst hd
  subst hb
  exact ⟨rfl, rfl⟩

theorem claim_C9_witness :
    mkDemod 6 0 4 QAMOrder.QAM16 (zeroEngine 12) =
      mkDemod 6 0 4 QAMOrder.QAM16 (zeroEngine 12) ∧
    ([] : List ℝ) = ([] : List ℝ) ∧
    (demodulate_symbol_from_buffer (mkDemod 6 0 4 QAMOrder.QAM16 (zeroEngine 12)) [] =
      demodulate_symbol_from_buffer (mkDemod 6 0 4 QAMOrder.QAM16 (zeroEngine 12)) [] ∧
    demodulate_call (mkDemod 6 0 4 QAMOrder.QAM16 (zeroEngine 12)) [] =
      (mkDemod 6 0 4 QAMOrder.QAM16 (zeroEngine 12), ([] : List ℝ),
        demodulate_symbol_from_buffer (mkDemod 6 0 4 QAMOrder.QAM16 (zeroEngine 12)) [])) :=
  ⟨rfl, rfl, claim_C9_pure _ _ _ _ rfl rfl⟩

/-- Claim C10 (implicit): with the engine the default planner returns for
size `2*num_subcarriers`, no internal failure path of
`demodulate_symbol_from_buffer` is reachable on a buffer of exactly the
symbol length: the prefix-stripped copy has matching length, `process`
succeeds, `demodulate_ofdm_symbol` returns `Ok`, no `unwrap` panics — the
length gate is the only failing site of the public operation. -/
theorem claim_C10_no_internal_failure (n cp pe : ℕ) (o : QAMOrder)
    (planner : ℕ → RealToComplex) (hplan : (planner (2 * n)).size = 2 * n)
    (input : List ℝ) (hlen : input.length = 2 * n + cp) :
    ∃ syms bs,
      demodulate_ofdm_symbol (OFDMDemodulator.new ⟨n, cp, pe, o, none⟩ planner)
        input = some syms ∧
      demodulate_symbol_from_buffer (OFDMDemodulator.new ⟨n, cp, pe, o, none⟩ planner)
        input = some bs := by
  obtain ⟨h1, h2⟩ := demod_total (OFDMDemodulator.new ⟨n, cp, pe, o, none⟩ planner)
    n cp pe o.bitsPerSymbol rfl hplan input hlen
  exact ⟨_, _, h1, h2⟩

theorem claim_C10_witness :
    (zeroEngine (2 * 6)).size = 2 * 6 ∧
    (List.replicate 16 (0 : ℝ)).length = 2 * 6 + 4 ∧
    ∃ syms bs,
      demodulate_ofdm_symbol (OFDMDemodulator.new ⟨6, 4, 4, QAMOrder.QAM16, none⟩ zeroEngine)
        (List.replicate 16 (0 : ℝ)) = some syms ∧
      demodulate_symbol_from_buffer (OFDMDemodulator.new ⟨6, 4, 4, QAMOrder.QAM16, none⟩ zeroEngine)
        (List.replicate 16 (0 : ℝ)) = some bs :=
  ⟨rfl, by simp,
    claim_C10_no_internal_failure 6 4 4 QAMOrder.QAM16 zeroEngine rfl _ (by simp)⟩

/- ### Claim C1: the noiseless round trip -/

/-- Witness inverse engine for 6 subcarriers. -/
def witnessIfft6 : ComplexToReal := encodeEngine 6 (by norm_num)

/-- Witness forward engine for 6 subcarriers. -/
def witnessFft6 : RealToComplex := decodeEngine 6 (by norm_num)

/-- Witness inverse engine for 64 subcarriers. -/
def witnessIfft64 : ComplexToReal := encodeEngine 64 (by norm_num)

/-- Witness forward engine for 64 subcarriers. -/
def witnessFft64 : RealToComplex := decodeEngine 64 (by norm_num)

/-- Claim C1 (amended): for a 16-QAM configuration whose data capacity is
byte-aligned, with a noiselessly inverting transform pair of positive gain,
demodulating the output of modulating a capacity-sized byte buffer returns
exactly the original bytes, provided at least one modulated bit group hits a
corner of the constellation (as any zero byte does); without the corner
condition the blind max-to-3 equalizer can mis-scale the symbol (see the
counterexample). -/
theorem claim_C1_roundtrip_amended (n cp pe : ℕ) (ifft : ComplexToReal)
    (fft : RealToComplex) (c : ℝ) (bytes : List ℕ)
    (hcp : cp ≤ 2 * n)
    (hifft : ifft.size = 2 * n) (hfft : fft.size = 2 * n)
    (hc : 0 < c)
    (hinv : ∀ v : List ℂ, v.length = n + 1 → (v.getD 0 0).im = 0 →
      (v.getD n 0).im = 0 →
      fft.apply (ifft.apply v) = v.map (fun z => ((c : ℝ) : ℂ) * z))
    (hbytes : ∀ b ∈ bytes, b < 256)
    (hlen : bytes.length =
      (OFDMConstants.new n pe cp QAMOrder.QAM16.bitsPerSymbol).data_capacity)
    (halign : (dataIdx n pe).length = 2 * bytes.length)
    (hcorner : ∃ g0 ∈ nibbles bytes, g0 = 0 ∨ g0 = 2 ∨ g0 = 8 ∨ g0 = 10) :
    ∃ wave : List ℝ,
      (mkModulator n cp pe QAMOrder.QAM16 ifft).modulate_buffer_as_symbol bytes =
        some wave ∧
      demodulate_symbol_from_buffer (mkDemod n cp pe QAMOrder.QAM16 fft) wave =
        some bytes :=
  roundtrip_sixteen n cp pe ifft fft c bytes hcp hifft hfft hc hinv hbytes
    hlen halign hcorner

theorem claim_C1_witness :
    (4 ≤ 2 * 6) ∧ witnessIfft6.size = 2 * 6 ∧ witnessFft6.size = 2 * 6 ∧
    ((0 : ℝ) < 1) ∧
    (∀ v : List ℂ, v.length = 6 + 1 → (v.getD 0 0).im = 0 →
      (v.getD 6 0).im = 0 →
      witnessFft6.apply (witnessIfft6.apply v) =
        v.map (fun z => ((1 : ℝ) : ℂ) * z)) ∧
    (∀ b ∈ [0, 0], b < 256) ∧
    ([0, 0].length =
      (OFDMConstants.new 6 4 4 QAMOrder.QAM16.bitsPerSymbol).data_capacity) ∧
    ((dataIdx 6 4).length = 2 * [0, 0].length) ∧
    (∃ g0 ∈ nibbles [0, 0], g0 = 0 ∨ g0 = 2 ∨ g0 = 8 ∨ g0 = 10) ∧
    ∃ wave : List ℝ,
      (mkModulator 6 4 4 QAMOrder.QAM16 witnessIfft6).modulate_buffer_as_symbol
        [0, 0] = some wave ∧
      demodulate_symbol_from_buffer (mkDemod 6 4 4 QAMOrder.QAM16 witnessFft6)
        wave = some [0, 0] := by
  have hinv : ∀ v : List ℂ, v.length = 6 + 1 → (v.getD 0 0).im = 0 →
      (v.getD 6 0).im = 0 →
      witnessFft6.apply (witnessIfft6.apply v) =
        v.map (fun z => ((1 : ℝ) : ℂ) * z) :=
    fun v hv h0 hN => decode_encode_eq 6 (by norm_num) v hv h0 hN
  exact ⟨by norm_num, rfl, rfl, by norm_num, hinv, by decide, by decide,
    by decide, by decide,
    claim_C1_roundtrip_amended 6 4 4 witnessIfft6 witnessFft6 1 [0, 0]
      (by norm_num) rfl rfl (by norm_num) hinv (by decide) (by decide)
      (by decide) (by decide)⟩

/-- Claim C1 (counterexample): with the configuration
`num_subcarriers = 6, cyclic_prefix_length = 4, pilot_subcarrier_every = 4`,
16-QAM and an exactly inverting injected transform pair, the capacity-sized
buffer `[0x55, 0x55]` — whose bit groups all map to inner constellation
points `(-1, -1)` — round-trips to `[0, 0]`: the blind equalizer lifts the
inner points to magnitude 3, and the nearest-point decision returns the
outer levels, so `demodulate(modulate(bytes)) ≠ bytes`. -/
theorem claim_C1_counterexample :
    ((mkModulator 6 4 4 QAMOrder.QAM16 witnessIfft6).modulate_buffer_as_symbol
        [85, 85]).bind
      (demodulate_symbol_from_buffer (mkDemod 6 4 4 QAMOrder.QAM16 witnessFft6)) =
      some [0, 0] ∧
    ([0, 0] : List ℕ) ≠ [85, 85] := by
  refine ⟨?_, by decide⟩
  have hinv : ∀ v : List ℂ, v.length = 6 + 1 → (v.getD 0 0).im = 0 →
      (v.getD 6 0).im = 0 →
      witnessFft6.apply (witnessIfft6.apply v) =
        v.map (fun z => ((1 : ℝ) : ℂ) * z) :=
    fun v hv h0 hN => decode_encode_eq 6 (by norm_num) v hv h0 hN
  obtain ⟨wave, hmod, hdem⟩ := pipeline_eq 6 4 4 QAMOrder.QAM16 witnessIfft6
    witnessFft6 1 [85, 85] (by norm_num) rfl rfl (by decide) hinv
  rw [hmod]
  have hbind : (some wave).bind
      (demodulate_symbol_from_buffer (mkDemod 6 4 4 QAMOrder.QAM16 witnessFft6)) =
      demodulate_symbol_from_buffer (mkDemod 6 4 4 QAMOrder.QAM16 witnessFft6) wave := rfl
  rw [hbind, hdem]
  congr 1
  -- the modulated points: every half-byte of 0x55 is the group 5 ↦ (-1, -1)
  have hp5 : qamPoint QAMOrder.QAM16 5 = ⟨(-1 : ℝ), (-1 : ℝ)⟩ := by
    unfold qamPoint
    rw [(by decide : qamPointZ QAMOrder.QAM16 5 = (-1, -1))]
    push_cast
    rfl
  have hptsdef : (QAMModem.new QAMOrder.QAM16).modulate [85, 85] =
      [(⟨-1, -1⟩ : ℂ), ⟨-1, -1⟩, ⟨-1, -1⟩, ⟨-1, -1⟩] := by
    unfold QAMModem.modulate
    rw [show (QAMModem.new QAMOrder.QAM16).qam_order = QAMOrder.QAM16 from rfl,
      qamGroups_sixteen, (by decide : nibbles [85, 85] = [5, 5, 5, 5])]
    simp only [List.map_cons, List.map_nil, hp5]
  rw [hptsdef]
  set p : ℂ := ⟨-1, -1⟩ with hp
  set pts : List ℂ := [p, p, p, p] with hptslit
  -- the gain is 1, so the transformed spectrum is the frequency vector itself
  have hout : (freqVec 6 4 pts).map (fun z => ((1 : ℝ) : ℂ) * z) =
      freqVec 6 4 pts := by
    simp
  rw [hout]
  -- the frequency vector, bin by bin
  have hbin0 : binValue 6 4 pts 0 = 0 := binValue_zero 6 4 pts
  have hbin6 : binValue 6 4 pts 6 = 0 := binValue_top 6 4 pts
  have hbin5 : binValue 6 4 pts 5 = 0 := by
    unfold binValue
    rw [if_neg (by decide : ¬ (5 ∈ pilotIdx 6 4)),
      if_neg (by decide : ¬ (5 ∈ dataIdx 6 4))]
  have hbin1 : binValue 6 4 pts 1 = p := by
    unfold binValue
    rw [if_neg (by decide : ¬ (1 ∈ pilotIdx 6 4)),
      if_pos (by decide : (1 : ℕ) ∈ dataIdx 6 4),
      (by decide : (dataIdx 6 4).indexOf 1 = 0)]
    rfl
  have hbin2 : binValue 6 4 pts 2 = p := by
    unfold binValue
    rw [if_neg (by decide : ¬ (2 ∈ pilotIdx 6 4)),
      if_pos (by decide : (2 : ℕ) ∈ dataIdx 6 4),
      (by decide : (dataIdx 6 4).indexOf 2 = 1)]
    rfl
  have hbin3 : binValue 6 4 pts 3 = p := by
    unfold binValue
    rw [if_neg (by decide : ¬ (3 ∈ pilotIdx 6 4)),
      if_pos (by decide : (3 : ℕ) ∈ dataIdx 6 4),
      (by decide : (dataIdx 6 4).indexOf 3 = 2)]
    rfl
  have hbin4 : binValue 6 4 pts 4 = p := by
    unfold binValue
    rw [if_neg (by decide : ¬ (4 ∈ pilotIdx 6 4)),
      if_pos (by decide : (4 : ℕ) ∈ dataIdx 6 4),
      (by decide : (dataIdx 6 4).indexOf 4 = 3)]
    rfl
  have hfreqlit : freqVec 6 4 pts = [0, p, p, p, p, 0, 0] := by
    unfold freqVec
    rw [(by decide : List.range 7 = [0, 1, 2, 3, 4, 5, 6])]
    simp only [List.map_cons, List.map_nil]
    rw [hbin0, hbin1, hbin2, hbin3, hbin4, hbin5, hbin6]
  -- the maximum magnitude is √2 (that of the inner point)
  have habsp : Complex.abs p = Real.sqrt 2 := by
    rw [hp, abs_mk]
    norm_num
  have hone_le : (1 : ℝ) ≤ Real.sqrt 2 := by
    nlinarith [Real.sq_sqrt (show (0:ℝ) ≤ 2 by norm_num), Real.sqrt_nonneg 2]
  have hmax : maxMagnitude (freqVec 6 4 pts) = Real.sqrt 2 := by
    rw [hfreqlit]
    apply maxMagnitude_eq (by linarith)
    · intro z hz
      simp only [List.mem_cons, List.not_mem_nil, or_false] at hz
      rcases hz with rfl | rfl | rfl | rfl | rfl | rfl | rfl
      · simp
      · rw [habsp]
      · rw [habsp]
      · rw [habsp]
      · rw [habsp]
      · simp
      · simp
    · exact ⟨p, by simp, habsp⟩
  have hmpos : 0 < maxMagnitude (freqVec 6 4 pts) := by
    rw [hmax]
    exact sqrt_two_pos
  rw [equalize_of_pos _ hmpos, hmax, hfreqlit,
    (by decide : dataIdx 6 4 = [1, 2, 3, 4])]
  simp only [List.map_cons, List.map_nil]
  have e1 : ∀ q : ℂ,
      ([(0:ℂ) / q, p / q, p / q, p / q, p / q, 0 / q, 0 / q]).getD 1 0 = p / q :=
    fun q => rfl
  have e2 : ∀ q : ℂ,
      ([(0:ℂ) / q, p / q, p / q, p / q, p / q, 0 / q, 0 / q]).getD 2 0 = p / q :=
    fun q => rfl
  have e3 : ∀ q : ℂ,
      ([(0:ℂ) / q, p / q, p / q, p / q, p / q, 0 / q, 0 / q]).getD 3 0 = p / q :=
    fun q => rfl
  have e4 : ∀ q : ℂ,
      ([(0:ℂ) / q, p / q, p / q, p / q, p / q, 0 / q, 0 / q]).getD 4 0 = p / q :=
    fun q => rfl
  rw [e1, e2, e3, e4]
  -- the nearest-point decision on the over-amplified inner point is the
  -- outer corner, bit group 0
  have hdecide : decidePoint QAMOrder.QAM16 (p / ((Real.sqrt 2 / 3 : ℝ) : ℂ)) = 0 := by
    have hre : (-1 : ℝ) / (Real.sqrt 2 / 3) = -(3 / Real.sqrt 2) := by
      rw [div_div_eq_mul_div]
      ring
    have hdl : decideLevel16 (-(3 / Real.sqrt 2)) = -3 := by
      unfold decideLevel16
      rw [if_pos (by linarith [two_lt_three_div_sqrt_two])]
    show 4 * code16 (decideLevel16 ((p / ((Real.sqrt 2 / 3 : ℝ) : ℂ)).re)) +
      code16 (decideLevel16 ((p / ((Real.sqrt 2 / 3 : ℝ) : ℂ)).im)) = 0
    rw [Complex.div_ofReal_re, Complex.div_ofReal_im, hp]
    show 4 * code16 (decideLevel16 ((-1 : ℝ) / (Real.sqrt 2 / 3))) +
      code16 (decideLevel16 ((-1 : ℝ) / (Real.sqrt 2 / 3))) = 0
    rw [hre, hdl]
    decide
  show qamDemodulate QAMOrder.QAM16 _ = [0, 0]
  unfold qamDemodulate
  simp only [List.map_cons, List.map_nil, hdecide]
  decide

/- ### Claim C8: the concrete "Hello, OFDM!" scenario -/

/-- The ASCII bytes of "Hello, OFDM!". -/
def helloBytes : List ℕ := [72, 101, 108, 108, 111, 44, 32, 79, 70, 68, 77, 33]

/-- The text zero-padded to the one-symbol data capacity (24 bytes). -/
def helloPadded : List ℕ := helloBytes ++ List.replicate 12 0

/-- Claim C8: in the configuration `numSubcarriers = 64`,
`cyclicPrefixLength = 4`, `pilotSubcarrierEvery = 4`, 16-QAM, the one-symbol
data capacity is the `64 - 2 - pilotCount` data indices times 4 bits over 8,
i.e. 24 bytes; and the ASCII bytes of "Hello, OFDM!" zero-padded to that
capacity, pushed through modulate then demodulate with a noiseless
(exactly inverting, positive-gain) transform pair, come back as the original
text prefix with every remaining byte zero. -/
theorem claim_C8_concrete_scenario :
    ((OFDMConstants.new 64 4 4 QAMOrder.QAM16.bitsPerSymbol).data_capacity = 24 ∧
      (dataIdx 64 4).length = 64 - 2 - (pilotIdx 64 4).length ∧
      (64 - 2 - (pilotIdx 64 4).length) * 4 / 8 = 24 ∧
      helloPadded.take 12 = helloBytes ∧ (∀ b ∈ helloPadded.drop 12, b = 0)) ∧
    (∀ (ifft : ComplexToReal) (fft : RealToComplex) (c : ℝ),
      ifft.size = 2 * 64 → fft.size = 2 * 64 → 0 < c →
      (∀ v : List ℂ, v.length = 64 + 1 → (v.getD 0 0).im = 0 →
        (v.getD 64 0).im = 0 →
        fft.apply (ifft.apply v) = v.map (fun z => ((c : ℝ) : ℂ) * z)) →
      ∃ wave : List ℝ,
        (mkModulator 64 4 4 QAMOrder.QAM16 ifft).modulate_buffer_as_symbol
          helloPadded = some wave ∧
        demodulate_symbol_from_buffer (mkDemod 64 4 4 QAMOrder.QAM16 fft) wave =
          some helloPadded) := by
  refine ⟨by decide, ?_⟩
  intro ifft fft c hifft hfft hc hinv
  exact roundtrip_sixteen 64 4 4 ifft fft c helloPadded (by norm_num) hifft hfft
    hc hinv (by decide) (by decide) (by decide) (by decide)

theorem claim_C8_witness :
    witnessIfft64.size = 2 * 64 ∧ witnessFft64.size = 2 * 64 ∧ ((0 : ℝ) < 1) ∧
    (∀ v : List ℂ, v.length = 64 + 1 → (v.getD 0 0).im = 0 →
      (v.getD 64 0).im = 0 →
      witnessFft64.apply (witnessIfft64.apply v) =
        v.map (fun z => ((1 : ℝ) : ℂ) * z)) ∧
    ∃ wave : List ℝ,
      (mkModulator 64 4 4 QAMOrder.QAM16 witnessIfft64).modulate_buffer_as_symbol
        helloPadded = some wave ∧
      demodulate_symbol_from_buffer (mkDemod 64 4 4 QAMOrder.QAM16 witnessFft64)
        wave = some helloPadded := by
  have hinv : ∀ v : List ℂ, v.length = 64 + 1 → (v.getD 0 0).im = 0 →
      (v.getD 64 0).im = 0 →
      witnessFft64.apply (witnessIfft64.apply v) =
        v.map (fun z => ((1 : ℝ) : ℂ) * z) :=
    fun v hv h0 hN => decode_encode_eq 64 (by norm_num) v hv h0 hN
  exact ⟨rfl, rfl, by norm_num, hinv,
    claim_C8_concrete_scenario.2 witnessIfft64 witnessFft64 1 rfl rfl
      (by norm_num) hinv⟩

end SoftwareModem
